import Mathlib

/-!
Verification development for the OpenSlide JPEG-mosaic backend
(`src/openslide-ops-jpeg.c`) and the DICOM backend
(`src/openslide-vendor-dicom.c`).

The C sources are shallowly embedded: a file is its list of bytes,
positional reads become list lookups, `int64_t` offsets become `Int`
with `-1` as the "unknown" sentinel, fatal assertions (`g_assert`)
and undefined behaviour become `Option.none`, and the observable
file-handle activity (`fseeko` / `fread` / `g_warning`) is recorded
as an event trace.
-/

namespace Openslide

/-- A JPEG file is modelled as its sequence of bytes. -/
abbrev JFile := List Nat

/-- Positional read of one byte; `none` when the offset is outside the
file (a failing `fseeko`/`fread`). -/
def byteAt (file : JFile) (p : Int) : Option Nat :=
  if 0 ≤ p then file.get? p.toNat else none

/-- Observable file-handle events: `fseeko` (target offset), `fread`
(byte count) and `g_warning`. -/
inductive FileEvent where
  | seek : Int → FileEvent
  | read : Nat → FileEvent
  | warn : FileEvent
deriving DecidableEq, Repr

/-- `memchr(buf, 0xFF, len)`: index of the first `0xFF` byte of the
buffer, if any. -/
def memchrFF : List Nat → Option Nat
  | [] => none
  | b :: rest => if b = 0xFF then some 0 else (memchrFF rest).map (· + 1)

/-- Result of `find_next_ff_marker`: the byte following the found `0xFF`,
the file offset just after it (`after_marker_pos`), the bytes still
unread in the caller's buffer, the file-handle position (`ftello`) and
the reads performed. -/
structure ScanRes where
  marker : Nat
  afterPos : Nat
  buf : List Nat
  filePos : Nat
  trace : List FileEvent
deriving DecidableEq, Repr

/-- `find_next_ff_marker` from `openslide-ops-jpeg.c`: scan forward from
the current buffer/file position for an `0xFF` byte and return the byte
after it, refilling the caller's buffer in chunks of at most `bufSize`
bytes.  `fuel` bounds the loop (the C loop terminates because every
iteration either consumes buffered bytes or reads new ones); running out
of fuel, like a failing `fread` followed by the caller's
`g_assert(after_marker_pos > 0)`, yields `none`. -/
def findNextFfMarker (file : JFile) (bufSize : Nat) :
    Nat → List Nat → Nat → Bool → Option ScanRes
  | 0, _, _, _ => none
  | fuel + 1, buf, filePos, lastWasFf =>
    match buf with
    | [] =>
      -- fill buffer: bytes_to_read = MIN(buf_size, file_size - file_pos)
      let bytesToRead := min bufSize (file.length - filePos)
      if bytesToRead = 0 then none
      else
        (findNextFfMarker file bufSize fuel ((file.drop filePos).take bytesToRead)
            (filePos + bytesToRead) lastWasFf).map
          (fun r => { r with trace := FileEvent.read bytesToRead :: r.trace })
    | m :: rest =>
      if lastWasFf then
        -- special case where the last time ended with FF
        some ⟨m, filePos - rest.length, rest, filePos, []⟩
      else
        match memchrFF (m :: rest) with
        | none => findNextFfMarker file bufSize fuel [] filePos false
        | some idx =>
          -- ff found, consume everything including ff
          match (m :: rest).drop (idx + 1) with
          | [] => findNextFfMarker file bufSize fuel [] filePos true
          | b :: rest3 => some ⟨b, filePos - rest3.length, rest3, filePos, []⟩

/-- Stream-level specification of one `find_next_ff_marker` call: from
absolute position `pos`, the byte following the first `0xFF` at or after
`pos`, together with the position just after that byte. -/
def findMarkerAux : List Nat → Nat → Option (Nat × Nat)
  | [], _ => none
  | [_], _ => none
  | b :: c :: rest, pos =>
    if b = 0xFF then some (c, pos + 2) else findMarkerAux (c :: rest) (pos + 1)

/-- `findMarkerAux` started at absolute file position `pos`. -/
def findMarker (file : JFile) (pos : Nat) : Option (Nat × Nat) :=
  findMarkerAux (file.drop pos) pos

/-- Specification of a `find_next_ff_marker` call entered with
`last_was_ff` set: the `0xFF` is already consumed, so the marker byte is
the one at `pos` itself. -/
def afterFfSpec (file : JFile) (pos : Nat) : Option (Nat × Nat) :=
  match file.get? pos with
  | none => none
  | some c => some (c, pos + 1)

/-- The backwards walk of `compute_mcu_start`: the largest index `k ≤ start`
whose entry is not `-1`.  Walking past the front of the array (all entries
`-1`, which the C code would read out of bounds) gives `none`. -/
def firstGoodIdx (starts : List Int) : Nat → Option Nat
  | 0 =>
    match starts.get? 0 with
    | some v => if v = -1 then none else some 0
    | none => none
  | k + 1 =>
    match starts.get? (k + 1) with
    | some v => if v = -1 then firstGoodIdx starts k else some (k + 1)
    | none => none

/-- The forward-scan loop of `compute_mcu_start`
(`while (first_good < target) ...`), translated with the persistent
buffer state of `find_next_ff_marker` threaded through.  `sf` is the fuel
given to each scanner call; `fuel` bounds the number of loop
iterations. -/
def computeMcuStartLoop (file : JFile) (bufSize sf : Nat) :
    Nat → List Int → Nat → Nat → List Nat → Nat → Option (List Int × List FileEvent)
  | fuel, starts, target, firstGood, buf, filePos =>
    if firstGood < target then
      match fuel with
      | 0 => none
      | fuel + 1 =>
        match findNextFfMarker file bufSize sf buf filePos false with
        | none => none
        | some r =>
          -- g_assert(after_marker_pos > 0)
          if r.afterPos = 0 then none
          else if r.marker = 0xD9 then some (starts, r.trace)  -- EOI: done
          else if 0xD0 ≤ r.marker ∧ r.marker < 0xD8 then
            (computeMcuStartLoop file bufSize sf fuel
                (starts.set (1 + firstGood) (r.afterPos : Int)) target
                (firstGood + 1) r.buf r.filePos).map
              (fun w => (w.1, r.trace ++ w.2))
          else
            (computeMcuStartLoop file bufSize sf fuel starts target firstGood
                r.buf r.filePos).map
              (fun w => (w.1, r.trace ++ w.2))
    else some (starts, [])

/-- Modelled from the spec's description of the forward scan (spec §4.3
steps 3–4): walk forward from absolute position `pos`, assign the
position after each restart marker `0xFF Dn` to the next index, skip
any other `0xFF`-escaped byte (in particular `0xFF 0x00` stuffing), and
stop at index `target` or at the EOI marker `0xFF D9`.  This is the
stream-level counterpart of `computeMcuStartLoop`. -/
def scanForwardSpec (file : JFile) (target : Nat) :
    Nat → List Int → Nat → Nat → Option (List Int)
  | fuel, starts, k, pos =>
    if k < target then
      match fuel with
      | 0 => none
      | fuel + 1 =>
        match findMarker file pos with
        | none => none
        | some (m, p) =>
          if m = 0xD9 then some starts
          else if 0xD0 ≤ m ∧ m < 0xD8 then
            scanForwardSpec file target fuel (starts.set (1 + k) (p : Int)) (k + 1) p
          else scanForwardSpec file target fuel starts k p
    else some starts

/-- `scanReaches file fuel pos need`: starting a forward scan at `pos`,
at least `need` restart markers occur before the end of the stream and
before any EOI marker, within `fuel` marker events. -/
def scanReaches (file : JFile) : Nat → Nat → Nat → Bool
  | fuel, pos, need =>
    if need = 0 then true
    else
      match fuel with
      | 0 => false
      | fuel + 1 =>
        match findMarker file pos with
        | none => false
        | some (m, p) =>
          if m = 0xD9 then false
          else if 0xD0 ≤ m ∧ m < 0xD8 then scanReaches file fuel p (need - 1)
          else scanReaches file fuel p need

/-- The two-byte test `compute_mcu_start` applies to a hint offset:
seek to `offset - 2`, read two bytes, and require `0xFF` followed by a
restart marker code `0xD0 ≤ b ≤ 0xD7` (false when the read fails). -/
def hintBytesOk (file : JFile) (offset : Int) : Bool :=
  match byteAt file (offset - 2), byteAt file (offset - 1) with
  | some b0, some b1 =>
    decide (b0 = 0xFF) && (decide (0xD0 ≤ b1) && decide (b1 ≤ 0xD7))
  | _, _ => false

/-- The hint offset read by `compute_mcu_start`:
`unreliable_mcu_starts[target]` when the array is present, `-1`
otherwise. -/
def hintOffset (unreliable : Option (List Int)) (target : Nat) : Int :=
  match unreliable with
  | none => -1
  | some hs => hs.getD target (-1)

/-- `compute_mcu_start` from `openslide-ops-jpeg.c`.  The result is the
updated `mcu_starts` array together with the trace of file-handle
events; `none` models a failed `g_assert` or undefined behaviour (an
out-of-bounds index).  The C function also receives `file_size`, which
the callers always set to the true size of the file, so it is taken
directly from `file` here. -/
def compute_mcu_start (file : JFile) (starts : List Int)
    (unreliable : Option (List Int)) (target : Nat) :
    Option (List Int × List FileEvent) :=
  match starts.get? target with
  | none => none
  | some tv =>
    if tv ≠ -1 then some (starts, [])  -- already done
    else if target = 0 then none       -- g_assert(target != 0)
    else
      -- check the unreliable_mcu_starts store first
      let offset : Int := hintOffset unreliable target
      let probe : List FileEvent :=
        if offset ≠ -1 then [FileEvent.seek (offset - 2), FileEvent.read 2] else []
      if decide (offset ≠ -1) && hintBytesOk file offset then
        some (starts.set target offset, probe)
      else
        let probe2 := probe ++ (if offset ≠ -1 then [FileEvent.warn] else [])
        -- otherwise, walk backwards to find the first non -1 offset
        match firstGoodIdx starts (target - 1) with
        | none => none
        | some fg =>
          (computeMcuStartLoop file 4096 (2 * file.length + 4) (file.length + 2)
              starts target fg [] (starts.getD fg 0).toNat).map
            (fun r => (r.1, probe2 ++ FileEvent.seek (starts.getD fg 0) :: r.2))

/-- `init_optimization`: allocate `count` entries, set them all to `-1`,
then set entry 0 to the position of the first MCU (`scanStart`, computed
by libjpeg as `ftello(f) - bytes_in_buffer` after header parsing). -/
def init_optimization (count : Nat) (scanStart : Nat) : List Int :=
  (List.replicate count (-1 : Int)).set 0 (scanStart : Int)

/-- Run a sequence of `compute_mcu_start` calls (as the background
restart-marker thread and the tile readers do), failing if any call
fails. -/
def runComputeSeq (file : JFile) (unreliable : Option (List Int)) :
    List Int → List Nat → Option (List Int)
  | starts, [] => some starts
  | starts, t :: ts =>
    match compute_mcu_start file starts unreliable t with
    | none => none
    | some (s', _) => runComputeSeq file unreliable s' ts

/-- One `mcu_starts` entry is acceptable: it is still unknown (`-1`), or
the two file bytes just before it are `0xFF` and a restart marker code
`0xD0 ≤ b ≤ 0xD7` (the property `verify_mcu_starts` asserts). -/
def entryOk (file : JFile) (v : Int) : Bool :=
  decide (v = -1) ||
    (byteAt file (v - 2) == some 0xFF &&
      match byteAt file (v - 1) with
      | some b => decide (0xD0 ≤ b ∧ b ≤ 0xD7)
      | none => false)

/-- All `mcu_starts` entries from index `lo` on are acceptable. -/
def startsMarkersOkFrom (file : JFile) (starts : List Int) (lo : Nat) : Bool :=
  (starts.drop lo).all (entryOk file)

/-- `jpeg_random_access_src`: synthesize the in-memory stream for one
segment.  The buffer is the file's first `headerStop` bytes followed by
the bytes in `[startPos, stopPos)`; then, unless one of the two
`g_return_if_fail` checks fires (in which case the buffer is returned
unmodified, exactly as in the C code), the final byte is overwritten
with `JPEG_EOI = 0xD9`. -/
def jpeg_random_access_src (file : JFile) (headerStop startPos stopPos : Nat) :
    List Nat :=
  let buffer := file.take headerStop ++ (file.drop startPos).take (stopPos - startPos)
  if buffer.get? headerStop = some 0xFF then buffer
  else if buffer.get? (buffer.length - 2) ≠ some 0xFF then buffer
  else buffer.set (buffer.length - 1) 0xD9

/-- `struct one_jpeg`: one source JPEG file.  `file_size` is kept by the
C code as a separate field always equal to the byte count of the file,
so it is `fileBytes.length` here. -/
structure OneJpeg where
  fileBytes : JFile
  mcuStartsCount : Nat
  mcuStarts : List Int
  unreliableMcuStarts : Option (List Int)
  tileWidth : Nat
  tileHeight : Nat
  width : Nat
  height : Nat
deriving DecidableEq, Repr

/-- The segment number computed by `read_from_one_jpeg`:
`tile_y * stride_in_tiles + tile_x`. -/
def mcuStartIndex (j : OneJpeg) (x y : Nat) : Nat :=
  (y / j.tileHeight) * (j.width / j.tileWidth) + x / j.tileWidth

/-- The stream-synthesis part of `read_from_one_jpeg`: force the needed
`mcu_starts` entries, pick the stop position (`file_size` for the last
segment, `mcu_starts[mcu_start + 1]` otherwise) and build the
random-access source buffer.  The decoding of the buffer by libjpeg is
outside the embedding. -/
def read_from_one_jpeg_buffer (j : OneJpeg) (x y : Nat) : Option (List Nat) := do
  let mcuStart := mcuStartIndex j x y
  let (s1, _) ← compute_mcu_start j.fileBytes j.mcuStarts j.unreliableMcuStarts mcuStart
  let (s2, stopPosition) ←
    if j.mcuStartsCount = mcuStart + 1 then
      pure (s1, (j.fileBytes.length : Int))
    else do
      let (s2, _) ← compute_mcu_start j.fileBytes s1 j.unreliableMcuStarts (mcuStart + 1)
      pure (s2, s2.getD (mcuStart + 1) 0)
  pure (jpeg_random_access_src j.fileBytes (s2.getD 0 0).toNat
    (s2.getD mcuStart 0).toNat stopPosition.toNat)

/-- `is_zxy_successor` from `openslide-ops-jpeg.c`, kept in the C
control-flow shape. -/
def is_zxy_successor (pz px py z x y : Int) : Bool :=
  if z = pz + 1 then decide (x = 0 ∧ y = 0)
  else if z ≠ pz then false
  else if y = py + 1 then decide (x = 0)
  else if y ≠ py then false
  else decide (x = px + 1)

/-- The width and height of one `struct one_jpeg`, which is all
`create_width_to_layer_map` reads from it. -/
structure OneJpegDim where
  width : Int
  height : Int
deriving DecidableEq, Repr

/-- `struct layer`.  `noScaleDenomDownsample` is a C `double`
(`layer0_w / pixel_w`); the exact dividend/divisor pair is kept instead
of the floating-point quotient. -/
structure LayerM where
  layerJpegs : List OneJpegDim
  pixelW : Int
  pixelH : Int
  jpegsAcross : Int
  jpegsDown : Int
  image00W : Int
  image00H : Int
  scaleDenom : Int
  noScaleDenomDownsample : Int × Int
deriving DecidableEq, Repr

/-- The `width → layer` hash table, as a partial map. -/
def WLMap := Int → Option LayerM

/-- The empty hash table. -/
def emptyWLMap : WLMap := fun _ => none

/-- `g_hash_table_insert`: insertion replaces any previous entry with
the same key. -/
def wlInsert (m : WLMap) (k : Int) (v : LayerM) : WLMap :=
  fun k' => if k' = k then some v else m k'

/-- `generate_layers_into_map`: create the four layers with
`scale_denom = 1, 2, 4, 8` (the C `while (scale_denom <= 8)` loop with
`scale_denom <<= 1`) sharing the same jpeg array, each inserted under
the key `pixel_w / scale_denom`.  The copy loop `g_assert`s that the
list holds at least `jpegs_across * jpegs_down` entries. -/
def generate_layers_into_map (jpegs : List OneJpegDim)
    (jpegsAcross jpegsDown : Int) (pixelW pixelH : Int)
    (image00W image00H : Int) (layer0W : Int) (m : WLMap) : Option WLMap :=
  let numJpegs := (jpegsAcross * jpegsDown).toNat
  if numJpegs ≤ jpegs.length then
    some (([1, 2, 4, 8] : List Int).foldl
      (fun acc sd =>
        wlInsert acc (Int.tdiv pixelW sd)
          { layerJpegs := jpegs.take numJpegs
            pixelW := pixelW
            pixelH := pixelH
            jpegsAcross := jpegsAcross
            jpegsDown := jpegsDown
            image00W := image00W
            image00H := image00H
            scaleDenom := sd
            noScaleDenomDownsample := (layer0W, pixelW) }) m)
  else none

/-- One `struct _openslide_jpeg_fragment`: its `(z, x, y)` position. -/
structure Fragment where
  z : Int
  x : Int
  y : Int
deriving DecidableEq, Repr

/-- The fragment list arrives in zxy-successor order starting from the
sentinel predecessor `(-1, -1, -1)`. -/
def zxyChainOk : Int × Int × Int → List (Fragment × OneJpegDim) → Bool
  | _, [] => true
  | (pz, px, py), (fr, _) :: rest =>
    is_zxy_successor pz px py fr.z fr.x fr.y && zxyChainOk (fr.z, fr.x, fr.y) rest

/-- The accumulation loop of `create_width_to_layer_map`.  The
`g_assert(is_zxy_successor ...)` becomes `none`.  (The C block that
resets `prev_*` to 0 when `prev_z == -1` is dead: `prev_*` are
overwritten from the current fragment at the end of every iteration and
not read in between.)  The C code prepends each jpeg to a `GSList` and
reverses it before flushing, which is an append here.  A layer is
flushed when the list ends or the next fragment has a different `z`. -/
def cwtlmAux : List (Fragment × OneJpegDim) → Int × Int × Int →
    List OneJpegDim → Int → Int → Int → Int → Int → WLMap → Option WLMap
  | [], _, _, _, _, _, _, _, m => some m
  | (fr, oj) :: rest, (pz, px, py), acc, lpw, lph, i00w, i00h, l0w, m =>
    if is_zxy_successor pz px py fr.z fr.x fr.y then
      let i00 := if fr.x = 0 ∧ fr.y = 0 then (oj.width, oj.height) else (i00w, i00h)
      let lpw' := if fr.y = 0 then lpw + oj.width else lpw
      let lph' := if fr.x = 0 then lph + oj.height else lph
      let acc' := acc ++ [oj]
      if rest = [] ∨ (rest.head?.map (fun p => p.1.z) ≠ some fr.z) then
        let l0w' := if fr.z = 0 then lpw' else l0w
        match generate_layers_into_map acc' (fr.x + 1) (fr.y + 1) lpw' lph'
            i00.1 i00.2 l0w' m with
        | none => none
        | some m' => cwtlmAux rest (fr.z, fr.x, fr.y) [] 0 0 0 0 l0w' m'
      else cwtlmAux rest (fr.z, fr.x, fr.y) acc' lpw' lph' i00.1 i00.2 l0w m
    else none

/-- `create_width_to_layer_map`, paired with the per-fragment jpeg
dimensions (`fragments[i]` and `jpegs + i` walk in lockstep in C). -/
def create_width_to_layer_map (frags : List (Fragment × OneJpegDim)) : Option WLMap :=
  cwtlmAux frags (-1, -1, -1) [] 0 0 0 0 0 emptyWLMap

/-- `get_dimensions` from the JPEG backend: indices at or above the
layer count give `(0, 0)`; valid indices give the layer's scaled size;
a negative index is an out-of-bounds pointer access (`none`). -/
def get_dimensions (layers : List LayerM) (layer : Int) : Option (Int × Int) :=
  if (layers.length : Int) ≤ layer then some (0, 0)
  else if 0 ≤ layer then
    (layers.get? layer.toNat).map
      (fun l => (Int.tdiv l.pixelW l.scaleDenom, Int.tdiv l.pixelH l.scaleDenom))
  else none

/-! The DICOM backend (`openslide-vendor-dicom.c`). -/

/-- The frame number computed by `read_tile`:
`guint32 frame_number = 1 + tile_col + l->tiles_across * tile_row`
(an `int64_t` computation truncated to an unsigned 32-bit value). -/
def read_tile_frame_number (tilesAcross tileCol tileRow : Int) : Nat :=
  ((1 + tileCol + tilesAcross * tileRow) % (2 ^ 32 : Int)).toNat

/-- The range check of `read_tile`: the tile is read unless
`frame_number < 1 || frame_number > l->num_frames`. -/
def read_tile_guard_ok (numFrames : Nat) (tilesAcross tileCol tileRow : Int) : Bool :=
  let fn := read_tile_frame_number tilesAcross tileCol tileRow
  !(decide (fn < 1) || decide (fn > numFrames))

/-- The allowed `ImageType` combination for original pyramid levels. -/
def original_types : List String := ["ORIGINAL", "PRIMARY", "VOLUME", "NONE"]

/-- The allowed `ImageType` combination for resampled pyramid levels. -/
def resampled_types : List String := ["DERIVED", "PRIMARY", "VOLUME", "RESAMPLED"]

/-- The `ImageType` combinations accepted for pyramid levels. -/
def level_types : List (List String) := [original_types, resampled_types]

/-- The allowed `ImageType` combination for label images. -/
def label_types : List String := ["ORIGINAL", "PRIMARY", "LABEL", "NONE"]

/-- The allowed `ImageType` combination for overview images. -/
def overview_types : List String := ["ORIGINAL", "PRIMARY", "OVERVIEW", "NONE"]

/-- The `ImageType` combinations accepted for associated images. -/
def associated_types : List (List String) := [label_types, overview_types]

/-- The metadata of one DICOM file that the classifier reads.
`wholeOk` is whether `read_whole_file` (metadata plus Basic Offset
Table) succeeds; `imageType j` is `get_tag_str(metadata, "ImageType", j)`;
the remaining fields are the integer tags. -/
structure DicomFileM where
  wholeOk : Bool
  imageType : Nat → Option String
  tpmColumns : Option Int
  tpmRows : Option Int
  cols : Option Int
  numRows : Option Int
  numFrames : Nat

/-- The inner loop of `is_type` for one candidate row: `some true` if
every element matches, `some false` on the first mismatch (`break`),
`none` if `get_tag_str` fails (which makes `is_type` return false
immediately). -/
def rowCheck (meta : Nat → Option String) : List String → Nat → Option Bool
  | [], _ => some true
  | t :: ts, j =>
    match meta j with
    | none => none
    | some v => if v = t then rowCheck meta ts (j + 1) else some false

/-- `is_type`: the `ImageType` matches one of the allowed combinations. -/
def is_type (meta : Nat → Option String) : List (List String) → Bool
  | [] => false
  | row :: rest =>
    match rowCheck meta row 0 with
    | none => false
    | some true => true
    | some false => is_type meta rest

/-- The level attributes `level_new` computes. -/
structure DLevelM where
  imageWidth : Int
  imageHeight : Int
  tileW : Int
  tileH : Int
  numFrames : Nat
  tilesAcross : Int
  tilesDown : Int
deriving DecidableEq, Repr

/-- `level_new`: read the size tags, require an accepted level
`ImageType` and square tiles, then fill in the grid shape
(`tiles_across = w / tile_w + !!(w % tile_w)`). -/
def level_new (f : DicomFileM) : Option DLevelM :=
  if ¬ f.wholeOk then none
  else
    match f.tpmColumns, f.tpmRows, f.cols, f.numRows with
    | some w, some h, some tw, some th =>
      if ¬ is_type f.imageType level_types then none
      else if tw ≠ th then none
      else
        some { imageWidth := w, imageHeight := h, tileW := tw, tileH := th,
               numFrames := f.numFrames,
               tilesAcross := Int.tdiv w tw + (if w % tw ≠ 0 then 1 else 0),
               tilesDown := Int.tdiv h th + (if h % th ≠ 0 then 1 else 0) }
    | _, _, _, _ => none

/-- `associated_new`: require an accepted associated `ImageType`, name
the image from `ImageType[2]` and read its size. -/
def associated_new (f : DicomFileM) : Option (String × Int × Int) :=
  if ¬ f.wholeOk then none
  else if ¬ is_type f.imageType associated_types then none
  else
    match f.imageType 2 with
    | none => none
    | some name =>
      match f.tpmColumns, f.tpmRows with
      | some w, some h => some (name, w, h)
      | _, _ => none

/-- `find_associated`: the OpenSlide name under which the associated
image is registered — "label" for `LABEL`, "macro" for `OVERVIEW`,
nothing otherwise. -/
def find_associated_name (f : DicomFileM) : Option String :=
  match associated_new f with
  | none => none
  | some (nm, _, _) =>
    if nm = "LABEL" then some "label"
    else if nm = "OVERVIEW" then some "macro"
    else none

/-- Invariant tying the scanner's buffer to the file: the buffered bytes
are exactly the slice of the file that ends at the handle position
`filePos`. -/
def bufInv (file : JFile) (buf : List Nat) (filePos : Nat) : Prop :=
  buf.length ≤ filePos ∧ buf = (file.drop (filePos - buf.length)).take buf.length

/-- The stream-level meaning of one scanner call: `afterFfSpec` when the
previous buffer ended in a pending `0xFF`, otherwise `findMarker`. -/
def scanSpecOf (file : JFile) (lastWasFf : Bool) (pos : Nat) : Option (Nat × Nat) :=
  if lastWasFf then afterFfSpec file pos else findMarker file pos

/-- `ImageType[j] = row[j]` for every element of `row` (what a
successful `is_type` row comparison establishes). -/
def imageTypeMatches (meta : Nat → Option String) (row : List String) : Prop :=
  ∀ j, j < row.length → meta j = some (row.getD j "")

/-! ### Lemmas about `memchr` and the stream-level marker search -/

/-- `byteAt` at a natural offset is a plain list lookup. -/
theorem byteAt_natCast (file : JFile) (n : Nat) :
    byteAt file (n : Int) = file.get? n := by
  simp [byteAt]

/-- If `memchr` finds nothing, no byte of the buffer is `0xFF`. -/
theorem memchrFF_eq_none {l : List Nat} (h : memchrFF l = none) :
    ∀ b ∈ l, b ≠ 0xFF := by
  induction l with
  | nil => simp
  | cons x xs ih =>
    simp only [memchrFF] at h
    split at h
    · exact absurd h (by simp)
    · intro b hb
      rcases List.mem_cons.1 hb with hb | hb
      · subst hb; assumption
      · exact ih (Option.map_eq_none'.1 h) b hb

/-- A successful `memchr` splits the buffer at the first `0xFF`. -/
theorem memchrFF_eq_some {l : List Nat} {i : Nat} (h : memchrFF l = some i) :
    ∃ pre suf, l = pre ++ 0xFF :: suf ∧ pre.length = i ∧ ∀ b ∈ pre, b ≠ 0xFF := by
  induction l generalizing i with
  | nil => simp [memchrFF] at h
  | cons x xs ih =>
    simp only [memchrFF] at h
    split at h
    · obtain rfl : (0 : Nat) = i := by simpa using h
      exact ⟨[], xs, by simp_all, rfl, by simp⟩
    · obtain ⟨j, hj, rfl⟩ := Option.map_eq_some'.1 h
      obtain ⟨pre, suf, rfl, rfl, hpre⟩ := ih hj
      refine ⟨x :: pre, suf, rfl, by simp, ?_⟩
      intro b hb
      rcases List.mem_cons.1 hb with hb | hb
      · subst hb; assumption
      · exact hpre b hb

/-- The marker search skips over any `0xFF`-free prefix. -/
theorem findMarkerAux_skip {pre : List Nat} (hpre : ∀ b ∈ pre, b ≠ 0xFF) :
    ∀ (rest : List Nat) (pos : Nat),
      findMarkerAux (pre ++ rest) pos = findMarkerAux rest (pos + pre.length) := by
  induction pre with
  | nil => intro rest pos; simp
  | cons x xs ih =>
    intro rest pos
    have hx : x ≠ 0xFF := hpre x (by simp)
    cases hxr : xs ++ rest with
    | nil =>
      obtain ⟨rfl, rfl⟩ := List.append_eq_nil.1 hxr
      simp [findMarkerAux]
    | cons c cs =>
      have : findMarkerAux (x :: (xs ++ rest)) pos
          = findMarkerAux (xs ++ rest) (pos + 1) := by
        rw [hxr]; simp [findMarkerAux, hx]
      rw [List.cons_append, this,
        ih (fun b hb => hpre b (by simp [hb])) rest (pos + 1)]
      congr 1
      simp [Nat.add_comm, Nat.add_left_comm]

/-- The marker search at an `0xFF` byte returns the byte after it. -/
theorem findMarkerAux_ff (l : List Nat) (pos : Nat) :
    findMarkerAux (0xFF :: l) pos =
      match l with
      | [] => none
      | c :: _ => some (c, pos + 2) := by
  cases l <;> simp [findMarkerAux]

/-- Any hit of the marker search names two adjacent bytes of the
searched list: an `0xFF` and the returned marker byte. -/
theorem findMarkerAux_some {l : List Nat} :
    ∀ {pos m p : Nat}, findMarkerAux l pos = some (m, p) →
      ∃ i, p = pos + i + 2 ∧ l.get? i = some 0xFF ∧ l.get? (i + 1) = some m := by
  induction l with
  | nil => intro pos m p h; simp [findMarkerAux] at h
  | cons b tail ih =>
    intro pos m p h
    cases tail with
    | nil => simp [findMarkerAux] at h
    | cons c rest =>
      simp only [findMarkerAux] at h
      split at h
      · obtain ⟨rfl, rfl⟩ : c = m ∧ pos + 2 = p := by simpa using h
        exact ⟨0, by omega, by simp_all, by simp⟩
      · obtain ⟨i, rfl, h1, h2⟩ := ih h
        exact ⟨i + 1, by omega, by simpa using h1, by simpa using h2⟩

/-- A found marker lies at least two bytes into the stream, and the two
file bytes just before the returned position are `0xFF` and the marker
byte. -/
theorem findMarker_bytes {file : JFile} {pos m p : Nat}
    (h : findMarker file pos = some (m, p)) :
    pos + 2 ≤ p ∧ file.get? (p - 2) = some 0xFF ∧ file.get? (p - 1) = some m := by
  obtain ⟨i, rfl, h1, h2⟩ := findMarkerAux_some h
  rw [List.get?_drop] at h1 h2
  refine ⟨by omega, ?_, ?_⟩
  · rw [show pos + i + 2 - 2 = pos + i from by omega]; exact h1
  · rw [show pos + i + 2 - 1 = pos + (i + 1) from by omega]; exact h2

/-! ### Lemmas about the buffer invariant -/

/-- The empty buffer satisfies the invariant at any position. -/
theorem bufInv_nil (file : JFile) (filePos : Nat) : bufInv file [] filePos :=
  ⟨by simp, by simp⟩

/-- The buffered slice fits inside the file. -/
theorem bufInv_length {file : JFile} {buf : List Nat} {filePos : Nat}
    (h : bufInv file buf filePos) :
    buf.length ≤ file.length - (filePos - buf.length) := by
  have := congrArg List.length h.2
  simp only [List.length_take, List.length_drop] at this
  omega

/-- A nonempty buffer places the handle position inside the file. -/
theorem bufInv_filePos_le {file : JFile} {buf : List Nat} {filePos : Nat}
    (h : bufInv file buf filePos) (hne : buf ≠ []) : filePos ≤ file.length := by
  have h1 := bufInv_length h
  have h2 := h.1
  have h3 : 1 ≤ buf.length := List.length_pos.2 hne
  omega

/-- The file from the buffer's start is the buffer followed by the file
from the handle position. -/
theorem bufInv_decomp {file : JFile} {buf : List Nat} {filePos : Nat}
    (h : bufInv file buf filePos) :
    file.drop (filePos - buf.length) = buf ++ file.drop filePos := by
  have h1 := h.1
  conv_lhs =>
    rw [← List.take_append_drop buf.length (file.drop (filePos - buf.length))]
  rw [← h.2, List.drop_drop]
  congr 2
  omega

/-- Reading through the invariant: buffered bytes are file bytes. -/
theorem bufInv_get {file : JFile} {buf : List Nat} {filePos : Nat}
    (h : bufInv file buf filePos) {i : Nat} (hi : i < buf.length) :
    file.get? (filePos - buf.length + i) = buf.get? i := by
  rw [← List.get?_drop, bufInv_decomp h, List.get?_append]
  exact hi

/-- Consuming the head of the buffer preserves the invariant. -/
theorem bufInv_tail {file : JFile} {m : Nat} {rest : List Nat} {filePos : Nat}
    (h : bufInv file (m :: rest) filePos) : bufInv file rest filePos := by
  obtain ⟨h1, h2⟩ := h
  simp only [List.length_cons] at h1 h2
  refine ⟨by omega, ?_⟩
  have hstep : rest = ((file.drop (filePos - (rest.length + 1))).take
      (rest.length + 1)).drop 1 := by
    conv_lhs => rw [show rest = (m :: rest).drop 1 from rfl, h2]
  conv_lhs => rw [hstep]
  rw [List.drop_take, List.drop_drop]
  have he : rest.length + 1 - 1 = rest.length := rfl
  rw [he, show filePos - (rest.length + 1) + 1 = filePos - rest.length from by omega]

/-- Consuming any prefix of the buffer preserves the invariant. -/
theorem bufInv_drop {file : JFile} {buf : List Nat} {filePos : Nat}
    (h : bufInv file buf filePos) (k : Nat) : bufInv file (buf.drop k) filePos := by
  induction k with
  | zero => simpa using h
  | succ k ih =>
    have h2 : buf.drop (k + 1) = (buf.drop k).tail := (List.tail_drop buf k).symm
    rw [h2]
    cases hd : buf.drop k with
    | nil => exact bufInv_nil file filePos
    | cons m rest =>
      rw [hd] at ih
      exact bufInv_tail ih

/-! ### Correctness of the buffered scanner against the stream spec -/

/-- `scanSpecOf` with the flag clear is the plain marker search. -/
theorem scanSpecOf_false (file : JFile) (pos : Nat) :
    scanSpecOf file false pos = findMarker file pos := rfl

/-- `scanSpecOf` with the flag set is the after-`0xFF` search. -/
theorem scanSpecOf_true (file : JFile) (pos : Nat) :
    scanSpecOf file true pos = afterFfSpec file pos := rfl

/-- The buffered `find_next_ff_marker` computes exactly the stream-level
marker search, provided its loop fuel covers the remaining file: the
returns agree, and a successful return re-establishes the buffer
invariant with the handle parked just after the marker byte. -/
theorem findNextFfMarker_spec (file : JFile) (bufSize : Nat) (hbs : 0 < bufSize) :
    ∀ (sf : Nat) (buf : List Nat) (filePos : Nat) (lastFf : Bool),
      bufInv file buf filePos →
      (lastFf = true → 1 ≤ filePos - buf.length ∧
          file.get? (filePos - buf.length - 1) = some 0xFF) →
      2 * (file.length - (filePos - buf.length)) + 2 +
          (if buf = [] then 1 else 0) ≤ sf →
      (findNextFfMarker file bufSize sf buf filePos lastFf = none ∧
          scanSpecOf file lastFf (filePos - buf.length) = none) ∨
      (∃ r, findNextFfMarker file bufSize sf buf filePos lastFf = some r ∧
          scanSpecOf file lastFf (filePos - buf.length) = some (r.marker, r.afterPos) ∧
          bufInv file r.buf r.filePos ∧ r.filePos - r.buf.length = r.afterPos) := by
  intro sf
  induction sf with
  | zero =>
    intro buf filePos lastFf _ _ hfuel
    omega
  | succ sf ih =>
    intro buf filePos lastFf hinv hlast hfuel
    cases buf with
    | nil =>
      simp only [List.length_nil, Nat.sub_zero] at hlast ⊢
      have hfuel' : 2 * (file.length - filePos) + 3 ≤ sf + 1 := by
        have h := hfuel
        simp only [List.length_nil, Nat.sub_zero, if_true] at h
        omega
      by_cases h0 : min bufSize (file.length - filePos) = 0
      · left
        have hL : file.length ≤ filePos := by omega
        constructor
        · simp [findNextFfMarker, h0]
        · cases lastFf with
          | false =>
            rw [scanSpecOf_false, findMarker, List.drop_eq_nil_of_le hL]
            rfl
          | true =>
            rw [scanSpecOf_true, afterFfSpec, List.get?_eq_none.2 hL]
      · have hrd : 1 ≤ min bufSize (file.length - filePos) := by omega
        set toRead := min bufSize (file.length - filePos) with htr
        have hlen : ((file.drop filePos).take toRead).length = toRead := by
          simp only [List.length_take, List.length_drop]
          omega
        have hinv' : bufInv file ((file.drop filePos).take toRead)
            (filePos + toRead) := by
          refine ⟨by omega, ?_⟩
          rw [hlen, show filePos + toRead - toRead = filePos from by omega]
        have hne : (file.drop filePos).take toRead ≠ [] := by
          intro hcon
          rw [hcon] at hlen
          simp at hlen
          omega
        have hrec := ih ((file.drop filePos).take toRead) (filePos + toRead)
          lastFf hinv'
          (by rw [hlen, show filePos + toRead - toRead = filePos from by omega]
              exact hlast)
          (by rw [hlen, show filePos + toRead - toRead = filePos from by omega,
                if_neg hne]
              omega)
        clear hfuel
        rw [hlen, show filePos + toRead - toRead = filePos from by omega] at hrec
        have hunf : findNextFfMarker file bufSize (sf + 1) [] filePos lastFf
            = (findNextFfMarker file bufSize sf ((file.drop filePos).take toRead)
                (filePos + toRead) lastFf).map
              (fun r => { r with trace := FileEvent.read toRead :: r.trace }) := by
          simp [findNextFfMarker, h0]
        rcases hrec with ⟨hn, hs⟩ | ⟨r, hr, hspec, hinv2, hpos⟩
        · left
          rw [hunf, hn]
          exact ⟨rfl, hs⟩
        · right
          refine ⟨{ r with trace := FileEvent.read toRead :: r.trace }, ?_, hspec,
            hinv2, hpos⟩
          rw [hunf, hr]
          rfl
    | cons m rest =>
      cases lastFf with
      | true =>
        right
        have hret : findNextFfMarker file bufSize (sf + 1) (m :: rest) filePos true
            = some ⟨m, filePos - rest.length, rest, filePos, []⟩ := by
          simp [findNextFfMarker]
        have hgm : file.get? (filePos - (rest.length + 1)) = some m := by
          have := bufInv_get hinv (i := 0) (by simp)
          simp only [List.length_cons] at this
          simpa using this
        have h1 := hinv.1
        simp only [List.length_cons] at h1
        refine ⟨⟨m, filePos - rest.length, rest, filePos, []⟩, hret, ?_, ?_, rfl⟩
        · rw [scanSpecOf_true]
          simp only [List.length_cons]
          rw [afterFfSpec, hgm]
          simp only [Option.some.injEq, Prod.mk.injEq]
          exact ⟨trivial, by omega⟩
        · exact bufInv_tail hinv
      | false =>
        have hbufne : (m :: rest) ≠ [] := by simp
        have hlc : (m :: rest).length = rest.length + 1 := by simp
        have hfpos : filePos ≤ file.length := bufInv_filePos_le hinv hbufne
        have hslice := bufInv_length hinv
        have h1 := hinv.1
        simp only [List.length_cons] at h1 hslice
        simp only [if_neg hbufne, List.length_cons] at hfuel
        cases hmc : memchrFF (m :: rest) with
        | none =>
          -- no ff in buffer, keep searching
          have hnoff := memchrFF_eq_none hmc
          have hunf : findNextFfMarker file bufSize (sf + 1) (m :: rest) filePos false
              = findNextFfMarker file bufSize sf [] filePos false := by
            simp [findNextFfMarker, hmc]
          have hspec_eq : findMarker file (filePos - (rest.length + 1))
              = findMarker file filePos := by
            rw [findMarker, show filePos - (rest.length + 1)
                = filePos - (m :: rest).length from by simp,
              bufInv_decomp hinv, findMarkerAux_skip hnoff, findMarker]
            congr 1
            simp only [List.length_cons]
            omega
          have hrec := ih [] filePos false (bufInv_nil file filePos) (by simp)
            (by simp only [List.length_nil, Nat.sub_zero, if_true]
                omega)
          simp only [List.length_nil, Nat.sub_zero] at hrec
          rcases hrec with ⟨hn, hs⟩ | ⟨r, hr, hspec, hinv2, hpos⟩
          · left
            rw [hunf, hn]
            refine ⟨rfl, ?_⟩
            rw [scanSpecOf_false] at hs
            rw [scanSpecOf_false]
            simp only [List.length_cons]
            rw [hspec_eq]
            exact hs
          · right
            refine ⟨r, by rw [hunf, hr], ?_, hinv2, hpos⟩
            rw [scanSpecOf_false] at hspec
            rw [scanSpecOf_false]
            simp only [List.length_cons]
            rw [hspec_eq]
            exact hspec
        | some idx =>
          obtain ⟨pre, suf, hdecomp, hprelen, hpre⟩ := memchrFF_eq_some hmc
          have hdrop1 : (m :: rest).drop (idx + 1) = suf := by
            rw [hdecomp, ← hprelen,
              show pre.length + 1 = (pre ++ [0xFF]).length from by simp,
              show pre ++ 0xFF :: suf = (pre ++ [0xFF]) ++ suf from by simp]
            exact List.drop_left _ _
          have hbuflen : (m :: rest).length = idx + 1 + suf.length := by
            rw [hdecomp, ← hprelen]
            simp [Nat.add_comm, Nat.add_left_comm, Nat.add_assoc]
          -- the 0xFF sits at file position (a + idx), i.e. just before the
          -- marker byte
          have hffat : file.get? (filePos - (m :: rest).length + idx)
              = some 0xFF := by
            rw [bufInv_get hinv (show idx < (m :: rest).length from by omega),
              hdecomp, ← hprelen, List.get?_append_right (le_refl _)]
            simp
          cases suf with
          | nil =>
            -- the buffer ended exactly at the ff
            have hunf : findNextFfMarker file bufSize (sf + 1) (m :: rest)
                filePos false = findNextFfMarker file bufSize sf [] filePos true := by
              simp [findNextFfMarker, hmc, hdrop1]
            have hafp : filePos = (filePos - (m :: rest).length) + idx + 1 := by
              simp only [List.length_nil] at hbuflen
              simp only [List.length_cons] at *
              omega
            have hpl : (pre ++ [(0xFF : Nat)]).length = idx + 1 := by
              simp [hprelen]
            have hdl : (m :: rest).length = (pre ++ [(0xFF : Nat)]).length :=
              congrArg List.length hdecomp
            have hrec := ih [] filePos true (bufInv_nil file filePos)
              (by intro _
                  simp only [List.length_nil, Nat.sub_zero]
                  constructor
                  · omega
                  · rw [show filePos - 1 = filePos - (m :: rest).length + idx
                      from by omega]
                    exact hffat)
              (by simp only [List.length_nil, Nat.sub_zero, if_true]
                  omega)
            simp only [List.length_nil, Nat.sub_zero] at hrec
            -- the stream spec steps over the prefix and parks after the ff
            have hspec_eq : findMarker file (filePos - (m :: rest).length)
                = afterFfSpec file filePos := by
              rw [findMarker, bufInv_decomp hinv, hdecomp]
              simp only [List.length_nil] at hbuflen
              rw [show (pre ++ 0xFF :: ([] : List Nat)) ++ file.drop filePos
                  = pre ++ (0xFF :: file.drop filePos) from by simp,
                findMarkerAux_skip hpre, findMarkerAux_ff, hprelen]
              cases hfd : file.drop filePos with
              | nil =>
                have hL2 : file.length ≤ filePos := by
                  have hlen2 := congrArg List.length hfd
                  simp only [List.length_drop, List.length_nil] at hlen2
                  omega
                rw [afterFfSpec, List.get?_eq_none.2 hL2]
              | cons c cs =>
                have hc : file.get? filePos = some c := by
                  have hgd := List.get?_drop file filePos 0
                  rw [hfd] at hgd
                  simpa using hgd.symm
                rw [afterFfSpec, hc]
                simp only [Option.some.injEq, Prod.mk.injEq]
                exact ⟨trivial, by omega⟩
            rcases hrec with ⟨hn, hs⟩ | ⟨r, hr, hspec, hinv2, hpos⟩
            · left
              rw [hunf, hn]
              refine ⟨rfl, ?_⟩
              rw [scanSpecOf_true] at hs
              rw [scanSpecOf_false]
              simp only [List.length_cons]
              rw [show filePos - (rest.length + 1)
                  = filePos - (m :: rest).length from by simp, hspec_eq]
              exact hs
            · right
              refine ⟨r, by rw [hunf, hr], ?_, hinv2, hpos⟩
              rw [scanSpecOf_true] at hspec
              rw [scanSpecOf_false]
              simp only [List.length_cons]
              rw [show filePos - (rest.length + 1)
                  = filePos - (m :: rest).length from by simp, hspec_eq]
              exact hspec
          | cons b rest3 =>
            -- marker byte available in the buffer: return it
            right
            have hunf : findNextFfMarker file bufSize (sf + 1) (m :: rest)
                filePos false
                = some ⟨b, filePos - rest3.length, rest3, filePos, []⟩ := by
              simp [findNextFfMarker, hmc, hdrop1]
            have hlenfacts : (m :: rest).length = idx + 2 + rest3.length := by
              simp only [List.length_cons] at hbuflen ⊢
              omega
            have hrest3 : (m :: rest).drop (idx + 2) = rest3 := by
              rw [hdecomp, ← hprelen,
                show pre.length + 2 = (pre ++ [0xFF, b]).length from by simp,
                show pre ++ 0xFF :: b :: rest3 = (pre ++ [0xFF, b]) ++ rest3
                  from by simp]
              exact List.drop_left _ _
            have hspec_eq : findMarker file (filePos - (m :: rest).length)
                = some (b, filePos - (m :: rest).length + idx + 2) := by
              rw [findMarker, bufInv_decomp hinv, hdecomp]
              rw [show (pre ++ 0xFF :: b :: rest3) ++ file.drop filePos
                  = pre ++ (0xFF :: b :: (rest3 ++ file.drop filePos))
                  from by simp, findMarkerAux_skip hpre, hprelen]
              simp [findMarkerAux]
            refine ⟨⟨b, filePos - rest3.length, rest3, filePos, []⟩, hunf, ?_, ?_, rfl⟩
            · rw [scanSpecOf_false]
              simp only [List.length_cons]
              rw [show filePos - (rest.length + 1)
                  = filePos - (m :: rest).length from by simp, hspec_eq]
              simp only [Option.some.injEq, Prod.mk.injEq]
              exact ⟨trivial, by omega⟩
            · rw [← hrest3]
              exact bufInv_drop hinv (idx + 2)

/-! ### The scan loop against its stream-level specification -/

/-- Projecting away the trace commutes with the trace-prepending map. -/
theorem map_fst_trace_map (x : Option (List Int × List FileEvent))
    (tr : List FileEvent) :
    ((x.map (fun w => (w.1, tr ++ w.2))).map Prod.fst) = x.map Prod.fst := by
  cases x <;> rfl

/-- The `compute_mcu_start` scan loop, run with the fuel the function
actually supplies, computes exactly the spec-level forward scan
(restart markers assigned in order, stuffed bytes skipped, stop at the
target index or at EOI). -/
theorem computeMcuStartLoop_eq_spec (file : JFile) :
    ∀ (fuel : Nat) (starts : List Int) (target fg : Nat) (buf : List Nat)
      (filePos : Nat),
      bufInv file buf filePos →
      (computeMcuStartLoop file 4096 (2 * file.length + 4) fuel starts target fg
          buf filePos).map Prod.fst
        = scanForwardSpec file target fuel starts fg (filePos - buf.length) := by
  intro fuel
  induction fuel with
  | zero =>
    intro starts target fg buf filePos hinv
    rw [computeMcuStartLoop, scanForwardSpec]
    by_cases h : fg < target <;> simp [h]
  | succ fuel ih =>
    intro starts target fg buf filePos hinv
    by_cases h : fg < target
    · have hsf : 2 * (file.length - (filePos - buf.length)) + 2 +
          (if buf = [] then 1 else 0) ≤ 2 * file.length + 4 := by
        have ha := bufInv_length hinv
        have hb := hinv.1
        by_cases hbe : buf = [] <;> simp [hbe] <;> omega
      have hspec := findNextFfMarker_spec file 4096 (by norm_num)
        (2 * file.length + 4) buf filePos false hinv (by simp) hsf
      rw [scanSpecOf_false] at hspec
      rcases hspec with ⟨hn, hs⟩ | ⟨r, hr, hs, hinv2, hpos⟩
      · rw [computeMcuStartLoop, scanForwardSpec]
        simp [h, hn, hs]
      · have hbytes := findMarker_bytes hs
        rw [computeMcuStartLoop, scanForwardSpec]
        simp only [if_pos h, hr, hs]
        rw [if_neg (show ¬ r.afterPos = 0 from by omega)]
        by_cases hEOI : r.marker = 0xD9
        · simp [hEOI]
        · simp only [if_neg hEOI]
          by_cases hRst : 0xD0 ≤ r.marker ∧ r.marker < 0xD8
          · simp only [if_pos hRst, map_fst_trace_map]
            have hrec := ih (starts.set (1 + fg) (r.afterPos : Int)) target
              (fg + 1) r.buf r.filePos hinv2
            rw [hpos] at hrec
            exact hrec
          · simp only [if_neg hRst, map_fst_trace_map]
            have hrec := ih starts target fg r.buf r.filePos hinv2
            rw [hpos] at hrec
            exact hrec
    · rw [computeMcuStartLoop, scanForwardSpec]
      simp [h]

/-- An entry pointing just past a restart marker is acceptable. -/
theorem entryOk_of_marker {file : JFile} {p : Nat} (h2 : 2 ≤ p)
    (hff : file.get? (p - 2) = some 0xFF) {b : Nat}
    (hb : file.get? (p - 1) = some b) (hlo : 0xD0 ≤ b) (hhi : b ≤ 0xD7) :
    entryOk file (p : Int) = true := by
  rw [entryOk]
  have e2 : byteAt file ((p : Int) - 2) = some 0xFF := by
    rw [byteAt, if_pos (by omega)]
    rw [show ((p : Int) - 2).toNat = p - 2 from by omega]
    exact hff
  have e1 : byteAt file ((p : Int) - 1) = some b := by
    rw [byteAt, if_pos (by omega)]
    rw [show ((p : Int) - 1).toNat = p - 1 from by omega]
    exact hb
  rw [e2, e1]
  simp [hlo, hhi]

/-- Setting any entry to an acceptable value keeps the index
acceptable from position 1 on. -/
theorem startsMarkersOkFrom_set {file : JFile} {starts : List Int}
    (h : startsMarkersOkFrom file starts 1 = true) (i : Nat) (v : Int)
    (hv : entryOk file v = true) :
    startsMarkersOkFrom file (starts.set i v) 1 = true := by
  rw [startsMarkersOkFrom, List.all_eq_true]
  rw [startsMarkersOkFrom, List.all_eq_true] at h
  intro x hx
  obtain ⟨⟨j, hj⟩, hget⟩ := List.mem_iff_get.1 hx
  have hup : ((starts.set i v).drop 1).get? j = some x := by
    rw [List.get?_eq_get hj, hget]
  rw [List.get?_drop] at hup
  by_cases hij : i = 1 + j
  · subst hij
    have hupv := hup
    rw [List.get?_set_eq] at hupv
    have hlt : 1 + j < starts.length := by
      by_contra hge
      rw [List.get?_eq_none.2 (by omega)] at hupv
      simp at hupv
    rw [List.get?_eq_get hlt] at hupv
    obtain rfl : v = x := by simpa using hupv
    exact hv
  · rw [List.get?_set_ne _ _ hij] at hup
    have hmem : x ∈ starts.drop 1 :=
      List.get?_mem (by rw [List.get?_drop]; exact hup)
    exact h x hmem

/-- The spec-level scan writes only acceptable entries: each assigned
offset points just past an `0xFF Dn` restart marker. -/
theorem scanForwardSpec_marker_ok (file : JFile) (target : Nat) :
    ∀ (fuel : Nat) (starts : List Int) (k pos : Nat) (s' : List Int),
      scanForwardSpec file target fuel starts k pos = some s' →
      startsMarkersOkFrom file starts 1 = true →
      startsMarkersOkFrom file s' 1 = true := by
  intro fuel
  induction fuel with
  | zero =>
    intro starts k pos s' hs hok
    rw [scanForwardSpec] at hs
    by_cases h : k < target
    · simp [h] at hs
    · simp only [if_neg h, Option.some.injEq] at hs
      subst hs
      exact hok
  | succ fuel ih =>
    intro starts k pos s' hs hok
    rw [scanForwardSpec] at hs
    by_cases h : k < target
    · simp only [if_pos h] at hs
      cases hm : findMarker file pos with
      | none => rw [hm] at hs; simp at hs
      | some mp =>
        obtain ⟨m, p⟩ := mp
        simp only [hm] at hs
        by_cases hEOI : m = 0xD9
        · rw [if_pos hEOI] at hs
          obtain rfl := Option.some.inj hs
          exact hok
        · rw [if_neg hEOI] at hs
          by_cases hRst : 0xD0 ≤ m ∧ m < 0xD8
          · rw [if_pos hRst] at hs
            refine ih _ _ _ _ hs ?_
            have hbytes := findMarker_bytes hm
            exact startsMarkersOkFrom_set hok _ _
              (entryOk_of_marker (by omega) hbytes.2.1 hbytes.2.2 hRst.1
                (by omega))
          · rw [if_neg hRst] at hs
            exact ih _ _ _ _ hs hok
    · simp only [if_neg h, Option.some.injEq] at hs
      subst hs
      exact hok

/-- The spec-level scan never touches entries at or below the start
index, nor any entry that is already known, provided the entries
strictly between the start index and the target are all unknown. -/
theorem scanForwardSpec_frame (file : JFile) (target : Nat) :
    ∀ (fuel : Nat) (starts : List Int) (k pos : Nat) (s' : List Int),
      (∀ j v, k < j → j ≤ target → starts.get? j = some v → v = -1) →
      scanForwardSpec file target fuel starts k pos = some s' →
      s'.length = starts.length ∧
      (∀ i, i ≤ k → s'.get? i = starts.get? i) ∧
      (∀ i v, starts.get? i = some v → v ≠ -1 → s'.get? i = some v) := by
  intro fuel
  induction fuel with
  | zero =>
    intro starts k pos s' hunk hs
    rw [scanForwardSpec] at hs
    by_cases h : k < target
    · simp [h] at hs
    · simp only [if_neg h, Option.some.injEq] at hs
      subst hs
      exact ⟨rfl, fun _ _ => rfl, fun _ _ hv _ => hv⟩
  | succ fuel ih =>
    intro starts k pos s' hunk hs
    rw [scanForwardSpec] at hs
    by_cases h : k < target
    · simp only [if_pos h] at hs
      cases hm : findMarker file pos with
      | none => rw [hm] at hs; simp at hs
      | some mp =>
        obtain ⟨m, p⟩ := mp
        simp only [hm] at hs
        by_cases hEOI : m = 0xD9
        · rw [if_pos hEOI] at hs
          obtain rfl := Option.some.inj hs
          exact ⟨rfl, fun _ _ => rfl, fun _ _ hv _ => hv⟩
        · rw [if_neg hEOI] at hs
          by_cases hRst : 0xD0 ≤ m ∧ m < 0xD8
          · rw [if_pos hRst] at hs
            have hunk' : ∀ j v, k + 1 < j → j ≤ target →
                (starts.set (1 + k) (p : Int)).get? j = some v → v = -1 := by
              intro j v hj1 hj2 hget
              rw [List.get?_set_ne _ _ (by omega)] at hget
              exact hunk j v (by omega) hj2 hget
            obtain ⟨hlen, hlow, hknown⟩ := ih _ _ _ _ hunk' hs
            refine ⟨by rw [hlen, List.length_set], ?_, ?_⟩
            · intro i hi
              rw [hlow i (by omega), List.get?_set_ne _ _ (by omega)]
            · intro i v hv hvne
              by_cases hik : i = 1 + k
              · exfalso
                exact hvne (hunk i v (by omega) (by omega) hv)
              · exact hknown i v (by rw [List.get?_set_ne _ _ (by omega)]; exact hv)
                  hvne
          · rw [if_neg hRst] at hs
            exact ih _ _ _ _ hunk hs
    · simp only [if_neg h, Option.some.injEq] at hs
      subst hs
      exact ⟨rfl, fun _ _ => rfl, fun _ _ hv _ => hv⟩

/-- A scan whose start index has already reached the target returns the
array unchanged, whatever the fuel. -/
theorem scanForwardSpec_done (file : JFile) (target fuel : Nat)
    (starts : List Int) (k pos : Nat) (h : ¬ k < target) :
    scanForwardSpec file target fuel starts k pos = some starts := by
  cases fuel with
  | zero => rw [scanForwardSpec]; exact if_neg h
  | succ fuel => rw [scanForwardSpec]; exact if_neg h

/-- If enough restart markers lie ahead of the scan position, the
spec-level scan terminates successfully with the target entry filled. -/
theorem scanForwardSpec_fills (file : JFile) (target : Nat) :
    ∀ (fuel : Nat) (starts : List Int) (k pos : Nat),
      k < target → target < starts.length →
      scanReaches file fuel pos (target - k) = true →
      ∃ s' v, scanForwardSpec file target fuel starts k pos = some s' ∧
        s'.get? target = some v ∧ v ≠ -1 := by
  intro fuel
  induction fuel with
  | zero =>
    intro starts k pos hk htl hre
    rw [scanReaches, if_neg (by omega)] at hre
    simp at hre
  | succ fuel ih =>
    intro starts k pos hk htl hre
    rw [scanReaches, if_neg (by omega)] at hre
    rw [scanForwardSpec, if_pos hk]
    cases hm : findMarker file pos with
    | none => rw [hm] at hre; simp at hre
    | some mp =>
      obtain ⟨m, p⟩ := mp
      simp only [hm] at hre ⊢
      by_cases hEOI : m = 0xD9
      · rw [if_pos hEOI] at hre
        simp at hre
      · rw [if_neg hEOI] at hre ⊢
        by_cases hRst : 0xD0 ≤ m ∧ m < 0xD8
        · rw [if_pos hRst] at hre ⊢
          by_cases hlast : k + 1 = target
          · refine ⟨starts.set (1 + k) (p : Int), (p : Int),
              ?_, ?_, by omega⟩
            · exact scanForwardSpec_done file target fuel _ _ _ (by omega)
            · rw [show 1 + k = target from by omega]
              rw [List.get?_set_eq, List.get?_eq_get htl]
              rfl
          · have hre' : scanReaches file fuel p (target - (k + 1)) = true := by
              rw [show target - (k + 1) = target - k - 1 from by omega]
              exact hre
            obtain ⟨s', v, hs', hv, hvne⟩ := ih (starts.set (1 + k) (p : Int))
              (k + 1) p (by omega) (by rw [List.length_set]; exact htl) hre'
            exact ⟨s', v, hs', hv, hvne⟩
        · rw [if_neg hRst] at hre ⊢
          exact ih starts k p hk htl hre

/-- The backwards walk of `compute_mcu_start` finds the largest known
index, and everything strictly above it (up to where the walk started)
is unknown. -/
theorem firstGoodIdx_spec (starts : List Int) {v0 : Int}
    (h0 : starts.get? 0 = some v0) (h0ne : v0 ≠ -1) :
    ∀ (k : Nat), k < starts.length →
      ∃ fg v, firstGoodIdx starts k = some fg ∧ fg ≤ k ∧
        starts.get? fg = some v ∧ v ≠ -1 ∧
        ∀ j, fg < j → j ≤ k → starts.get? j = some (-1) := by
  intro k
  induction k with
  | zero =>
    intro _
    refine ⟨0, v0, ?_, le_refl 0, h0, h0ne, by omega⟩
    rw [firstGoodIdx, h0]
    simp [h0ne]
  | succ k ih =>
    intro hk
    have hk' : k < starts.length := by omega
    cases hv : starts.get? (k + 1) with
    | none =>
      exfalso
      rw [List.get?_eq_none] at hv
      omega
    | some v =>
      by_cases hvne : v = -1
      · subst hvne
        obtain ⟨fg, w, hfg, hle, hw, hwne, habove⟩ := ih hk'
        refine ⟨fg, w, ?_, by omega, hw, hwne, ?_⟩
        · rw [firstGoodIdx, hv]
          simpa using hfg
        · intro j hj1 hj2
          by_cases hjk : j = k + 1
          · subst hjk; exact hv
          · exact habove j hj1 (by omega)
      · refine ⟨k + 1, v, ?_, le_refl _, hv, hvne, by omega⟩
        rw [firstGoodIdx, hv]
        simp [hvne]

/-- What a successful backwards walk guarantees: the found index is
known and everything strictly above it (up to the walk's start) is
unknown. -/
theorem firstGoodIdx_some_spec (starts : List Int) :
    ∀ (k fg : Nat), firstGoodIdx starts k = some fg →
      fg ≤ k ∧ (∃ v, starts.get? fg = some v ∧ v ≠ -1) ∧
      ∀ j, fg < j → j ≤ k → starts.get? j = some (-1) := by
  intro k
  induction k with
  | zero =>
    intro fg h
    rw [firstGoodIdx] at h
    cases h0 : starts.get? 0 with
    | none => rw [h0] at h; simp at h
    | some v =>
      simp only [h0] at h
      by_cases hv : v = -1
      · rw [if_pos hv] at h; simp at h
      · rw [if_neg hv] at h
        obtain rfl := Option.some.inj h
        exact ⟨le_refl 0, ⟨v, h0, hv⟩, by omega⟩
  | succ k ih =>
    intro fg h
    rw [firstGoodIdx] at h
    cases hk1 : starts.get? (k + 1) with
    | none => rw [hk1] at h; simp at h
    | some v =>
      simp only [hk1] at h
      by_cases hv : v = -1
      · rw [if_pos hv] at h
        obtain ⟨hle, hknown, habove⟩ := ih fg h
        refine ⟨by omega, hknown, ?_⟩
        intro j hj1 hj2
        by_cases hjk : j = k + 1
        · subst hjk; rw [hk1, hv]
        · exact habove j hj1 (by omega)
      · rw [if_neg hv] at h
        obtain rfl := Option.some.inj h
        exact ⟨le_refl _, ⟨v, hk1, hv⟩, by omega⟩

/-- `hintBytesOk` rejects the sentinel `-1` (the seek to `-3` fails). -/
theorem hintBytesOk_neg_one (file : JFile) : hintBytesOk file (-1) = false := by
  rw [hintBytesOk]
  rw [show byteAt file (-1 - 2) = none from by rw [byteAt]; norm_num]

/-- A hint that passes the byte test is an acceptable index entry. -/
theorem entryOk_of_hintBytesOk {file : JFile} {offset : Int}
    (h : hintBytesOk file offset = true) : entryOk file offset = true := by
  rw [hintBytesOk] at h
  rw [entryOk]
  cases e2 : byteAt file (offset - 2) with
  | none => simp [e2] at h
  | some b0 =>
    cases e1 : byteAt file (offset - 1) with
    | none => simp [e1] at h
    | some b1 =>
      simp only [e2, e1, Bool.and_eq_true, decide_eq_true_eq] at h
      obtain ⟨rfl, hlo, hhi⟩ := h
      simp [e2, e1, hlo, hhi]

/-- Inversion principle for a successful `compute_mcu_start` call: the
call either found the target already known, accepted a validated hint,
or ran the forward scan (whose effect on the array is the spec-level
scan from the last known index). -/
theorem compute_mcu_start_inv {file : JFile} {starts : List Int}
    {unreliable : Option (List Int)} {target : Nat} {s' : List Int}
    {tr : List FileEvent}
    (h : compute_mcu_start file starts unreliable target = some (s', tr)) :
    (∃ v, starts.get? target = some v ∧ v ≠ -1 ∧ s' = starts ∧ tr = []) ∨
    (starts.get? target = some (-1) ∧ target ≠ 0 ∧
      hintOffset unreliable target ≠ -1 ∧
      hintBytesOk file (hintOffset unreliable target) = true ∧
      s' = starts.set target (hintOffset unreliable target)) ∨
    (starts.get? target = some (-1) ∧ target ≠ 0 ∧
      ∃ fg, firstGoodIdx starts (target - 1) = some fg ∧
        scanForwardSpec file target (file.length + 2) starts fg
          ((starts.getD fg 0).toNat) = some s') := by
  rw [compute_mcu_start] at h
  cases hg : starts.get? target with
  | none => rw [hg] at h; simp at h
  | some tv =>
    simp only [hg] at h
    by_cases htv : tv ≠ -1
    · rw [if_pos htv] at h
      obtain ⟨rfl, rfl⟩ := Prod.mk.injEq .. ▸ Option.some.inj h
      exact Or.inl ⟨tv, rfl, htv, rfl, rfl⟩
    · rw [if_neg htv] at h
      push_neg at htv
      subst htv
      by_cases h0 : target = 0
      · rw [if_pos h0] at h; simp at h
      · rw [if_neg h0] at h
        by_cases hGB : (decide (hintOffset unreliable target ≠ -1) &&
            hintBytesOk file (hintOffset unreliable target)) = true
        · rw [if_pos hGB] at h
          simp only [Bool.and_eq_true, decide_eq_true_eq] at hGB
          obtain ⟨rfl, -⟩ := Prod.mk.injEq .. ▸ Option.some.inj h
          exact Or.inr (Or.inl ⟨rfl, h0, hGB.1, hGB.2, rfl⟩)
        · rw [if_neg hGB] at h
          cases hfg : firstGoodIdx starts (target - 1) with
          | none => rw [hfg] at h; simp at h
          | some fg =>
            rw [hfg] at h
            obtain ⟨⟨s2, tr2⟩, hloop, heq⟩ := Option.map_eq_some'.1 h
            obtain ⟨rfl, -⟩ := Prod.mk.injEq .. ▸ heq
            have hspec := computeMcuStartLoop_eq_spec file (file.length + 2)
              starts target fg [] ((starts.getD fg 0).toNat)
              (bufInv_nil file _)
            rw [hloop] at hspec
            simp only [List.length_nil, Nat.sub_zero] at hspec
            exact Or.inr (Or.inr ⟨rfl, h0, fg, rfl, hspec.symm⟩)

/-- A call whose target entry is already known returns immediately,
unchanged and with no file-handle events. -/
theorem compute_mcu_start_already_known {file : JFile} {starts : List Int}
    {unreliable : Option (List Int)} {target : Nat} {v : Int}
    (h : starts.get? target = some v) (hne : v ≠ -1) :
    compute_mcu_start file starts unreliable target = some (starts, []) := by
  rw [compute_mcu_start]
  simp only [h]
  rw [if_pos hne]

/-- Every successful `compute_mcu_start` call preserves the
restart-marker acceptability of the index from position 1 on. -/
theorem compute_mcu_start_marker_ok {file : JFile} {starts s' : List Int}
    {unreliable : Option (List Int)} {target : Nat} {tr : List FileEvent}
    (h : compute_mcu_start file starts unreliable target = some (s', tr))
    (hok : startsMarkersOkFrom file starts 1 = true) :
    startsMarkersOkFrom file s' 1 = true := by
  rcases compute_mcu_start_inv h with ⟨v, _, _, rfl, rfl⟩ |
    ⟨_, _, _, hby, rfl⟩ | ⟨_, _, fg, _, hspec⟩
  · exact hok
  · exact startsMarkersOkFrom_set hok _ _ (entryOk_of_hintBytesOk hby)
  · exact scanForwardSpec_marker_ok file target _ _ _ _ _ hspec hok

/-- Every successful `compute_mcu_start` call keeps the array length,
leaves entry 0 untouched, and preserves every already-known entry. -/
theorem compute_mcu_start_frame {file : JFile} {starts s' : List Int}
    {unreliable : Option (List Int)} {target : Nat} {tr : List FileEvent}
    (h : compute_mcu_start file starts unreliable target = some (s', tr)) :
    s'.length = starts.length ∧ s'.get? 0 = starts.get? 0 ∧
    (∀ i v, starts.get? i = some v → v ≠ -1 → s'.get? i = some v) := by
  rcases compute_mcu_start_inv h with ⟨v, hg, hvne, rfl, rfl⟩ |
    ⟨hg, h0, hne, hby, rfl⟩ | ⟨hg, h0, fg, hfg, hspec⟩
  · exact ⟨rfl, rfl, fun _ _ hv _ => hv⟩
  · refine ⟨List.length_set .., List.get?_set_ne _ _ h0, ?_⟩
    intro i v hv hvne
    by_cases hit : i = target
    · subst hit
      rw [hg] at hv
      exact absurd (Option.some.inj hv).symm hvne
    · rw [List.get?_set_ne _ _ (fun hc => hit hc.symm)]
      exact hv
  · obtain ⟨hle, -, habove⟩ := firstGoodIdx_some_spec starts _ _ hfg
    have hunk : ∀ j v, fg < j → j ≤ target → starts.get? j = some v → v = -1 := by
      intro j v hj1 hj2 hjv
      by_cases hjt : j = target
      · subst hjt
        rw [hg] at hjv
        exact (Option.some.inj hjv).symm
      · have hjm := habove j hj1 (by omega)
        rw [hjm] at hjv
        exact (Option.some.inj hjv).symm
    obtain ⟨hlen, hlow, hknown⟩ :=
      scanForwardSpec_frame file target _ _ _ _ _ hunk hspec
    exact ⟨hlen, hlow 0 (by omega), hknown⟩

/-- Running any sequence of `compute_mcu_start` calls preserves the
restart-marker acceptability of the index from position 1 on. -/
theorem runComputeSeq_marker_ok {file : JFile} {unreliable : Option (List Int)} :
    ∀ (targets : List Nat) (starts s' : List Int),
      runComputeSeq file unreliable starts targets = some s' →
      startsMarkersOkFrom file starts 1 = true →
      startsMarkersOkFrom file s' 1 = true := by
  intro targets
  induction targets with
  | nil =>
    intro starts s' h hok
    rw [runComputeSeq] at h
    obtain rfl := Option.some.inj h
    exact hok
  | cons t ts ih =>
    intro starts s' h hok
    rw [runComputeSeq] at h
    cases hc : compute_mcu_start file starts unreliable t with
    | none => rw [hc] at h; simp at h
    | some p =>
      obtain ⟨s2, tr⟩ := p
      simp only [hc] at h
      exact ih s2 s' h (compute_mcu_start_marker_ok hc hok)

/-- The freshly initialized index is acceptable from position 1 on:
every entry except entry 0 is `-1`. -/
theorem init_optimization_marker_ok (file : JFile) (count scanStart : Nat) :
    startsMarkersOkFrom file (init_optimization count scanStart) 1 = true := by
  cases count with
  | zero => rfl
  | succ k =>
    have hrw : init_optimization (k + 1) scanStart
        = (scanStart : Int) :: List.replicate k (-1) := by
      rw [init_optimization, List.replicate_succ]
      rfl
    rw [startsMarkersOkFrom, hrw]
    simp only [List.drop_succ_cons, List.drop_zero, List.all_eq_true,
      List.mem_replicate]
    intro x hx
    rw [hx.2, entryOk]
    simp

/-- `hintOffset` with a present hint array is the array lookup. -/
theorem hintOffset_some (hs : List Int) (target : Nat) :
    hintOffset (some hs) target = hs.getD target (-1) := rfl

/-- Shape of a call that accepts its hint: the target entry is set to
the hint and the only file-handle activity is one seek and one two-byte
read. -/
theorem compute_mcu_start_hint_good {file : JFile} {starts : List Int}
    {unreliable : Option (List Int)} {target : Nat}
    (h1 : starts.get? target = some (-1)) (h0 : target ≠ 0)
    (hne : hintOffset unreliable target ≠ -1)
    (hby : hintBytesOk file (hintOffset unreliable target) = true) :
    compute_mcu_start file starts unreliable target =
      some (starts.set target (hintOffset unreliable target),
        [FileEvent.seek (hintOffset unreliable target - 2), FileEvent.read 2]) := by
  rw [compute_mcu_start]
  simp only [h1]
  rw [if_neg (by simp), if_neg h0,
    if_pos (show (decide (hintOffset unreliable target ≠ -1) &&
      hintBytesOk file (hintOffset unreliable target)) = true from by
        simp [hne, hby]),
    if_pos hne]

/-- Shape of a call whose hint is present but rejected by the byte
test: the probe, a warning and the forward scan from the last known
index. -/
theorem compute_mcu_start_hint_bad {file : JFile} {starts : List Int}
    {unreliable : Option (List Int)} {target fg : Nat}
    (h1 : starts.get? target = some (-1)) (h0 : target ≠ 0)
    (hne : hintOffset unreliable target ≠ -1)
    (hby : hintBytesOk file (hintOffset unreliable target) = false)
    (hfg : firstGoodIdx starts (target - 1) = some fg) :
    compute_mcu_start file starts unreliable target =
      (computeMcuStartLoop file 4096 (2 * file.length + 4) (file.length + 2)
          starts target fg [] (starts.getD fg 0).toNat).map
        (fun r => (r.1, FileEvent.seek (hintOffset unreliable target - 2) ::
          FileEvent.read 2 :: FileEvent.warn ::
          FileEvent.seek (starts.getD fg 0) :: r.2)) := by
  rw [compute_mcu_start]
  simp only [h1]
  rw [if_neg (by simp), if_neg h0,
    if_neg (show ¬ (decide (hintOffset unreliable target ≠ -1) &&
      hintBytesOk file (hintOffset unreliable target)) = true from by
        simp [hby])]
  simp only [hfg, if_pos hne]
  cases computeMcuStartLoop file 4096 (2 * file.length + 4) (file.length + 2)
      starts target fg [] (starts.getD fg 0).toNat with
  | none => rfl
  | some r => rfl

/-- Shape of a call with no usable hint (`unreliable_mcu_starts` absent
or holding `-1`): just the forward scan from the last known index. -/
theorem compute_mcu_start_no_hint {file : JFile} {starts : List Int}
    {unreliable : Option (List Int)} {target fg : Nat}
    (h1 : starts.get? target = some (-1)) (h0 : target ≠ 0)
    (hno : hintOffset unreliable target = -1)
    (hfg : firstGoodIdx starts (target - 1) = some fg) :
    compute_mcu_start file starts unreliable target =
      (computeMcuStartLoop file 4096 (2 * file.length + 4) (file.length + 2)
          starts target fg [] (starts.getD fg 0).toNat).map
        (fun r => (r.1, FileEvent.seek (starts.getD fg 0) :: r.2)) := by
  rw [compute_mcu_start]
  simp only [h1]
  rw [if_neg (by simp), if_neg h0,
    if_neg (show ¬ (decide (hintOffset unreliable target ≠ -1) &&
      hintBytesOk file (hintOffset unreliable target)) = true from by
        simp [hno])]
  simp only [hfg, hno]
  rw [if_neg (show ¬ ((-1 : Int) ≠ -1) from by simp)]
  cases computeMcuStartLoop file 4096 (2 * file.length + 4) (file.length + 2)
      starts target fg [] (starts.getD fg 0).toNat with
  | none => rfl
  | some r => rfl

/-! ### Claim C1 -/

/-- **C1, counterexample to the claim as stated.**  The claim quantifies
over every index `i ∈ [0, N)`, including index 0.  After initial
population (an empty sequence of `compute_mcu_start` calls) of a
two-segment JPEG whose entropy data starts at offset 4, `starts[0] = 4`,
but the two file bytes at `starts[0] - 2` are `0x3F 0x00` (the tail of
the headers), not `0xFF Dn` — so the property fails at index 0. -/
theorem C1_counterexample :
    runComputeSeq [0xFF, 0xD8, 0x3F, 0x00, 0xA1, 0xA2, 0xFF, 0xD0, 0xB1,
        0xB2, 0xFF, 0xD9] none (init_optimization 2 4) []
      = some (init_optimization 2 4) ∧
    startsMarkersOkFrom [0xFF, 0xD8, 0x3F, 0x00, 0xA1, 0xA2, 0xFF, 0xD0,
        0xB1, 0xB2, 0xFF, 0xD9] (init_optimization 2 4) 0 = false :=
  ⟨rfl, by decide⟩

/-- **C1 (amended).**  For every JPEG file and every index `i ∈ [1, N)`:
after initial population and after any sequence of `compute_mcu_start`
calls (with any hint array), whenever `starts[i] ≠ -1` the two file
bytes at `starts[i] - 2` are `0xFF` followed by a restart marker code
`0xD0 ≤ Dn ≤ 0xD7`.  Index 0 (the header-end position, which
`verify_mcu_starts` likewise skips) is excluded. -/
theorem C1_marker_invariant (file : JFile) (count scanStart : Nat)
    (unreliable : Option (List Int)) (targets : List Nat) (s : List Int)
    (h : runComputeSeq file unreliable (init_optimization count scanStart)
      targets = some s) :
    startsMarkersOkFrom file s 1 = true :=
  runComputeSeq_marker_ok targets _ s h
    (init_optimization_marker_ok file count scanStart)

/-- Witness for `C1_marker_invariant` at a concrete two-segment JPEG:
computing `starts[1]` by the forward scan yields the index `[4, 8]`,
which satisfies the invariant from position 1. -/
theorem C1_witness :
    startsMarkersOkFrom [0xFF, 0xD8, 0x3F, 0x00, 0xA1, 0xA2, 0xFF, 0xD0,
        0xB1, 0xB2, 0xFF, 0xD9] [4, 8] 1 = true :=
  C1_marker_invariant [0xFF, 0xD8, 0x3F, 0x00, 0xA1, 0xA2, 0xFF, 0xD0,
    0xB1, 0xB2, 0xFF, 0xD9] 2 4 none [1] [4, 8] (by decide)

/-! ### Claim C10 -/

/-- **C10.**  Every successful `compute_mcu_start` call preserves all
already-known index entries (in particular `mcu_starts[0]` is never
modified), and a call whose target entry is already known returns the
array unchanged and performs no file I/O (its event trace is empty). -/
theorem C10_frame_effect (file : JFile) (starts : List Int)
    (unreliable : Option (List Int)) (target : Nat) (s' : List Int)
    (tr : List FileEvent)
    (h : compute_mcu_start file starts unreliable target = some (s', tr)) :
    (∀ i v, starts.get? i = some v → v ≠ -1 → s'.get? i = some v) ∧
    s'.get? 0 = starts.get? 0 ∧ s'.length = starts.length ∧
    (∀ v, starts.get? target = some v → v ≠ -1 → s' = starts ∧ tr = []) := by
  obtain ⟨hlen, h0, hknown⟩ := compute_mcu_start_frame h
  refine ⟨hknown, h0, hlen, ?_⟩
  intro v hv hvne
  have hdone := @compute_mcu_start_already_known file starts unreliable
    target v hv hvne
  rw [hdone] at h
  obtain ⟨h1, h2⟩ := Prod.mk.injEq .. ▸ Option.some.inj h
  exact ⟨h1.symm, h2.symm⟩

/-- Witness for `C10_frame_effect`: computing `starts[1]` of the
concrete two-segment JPEG preserves the known entry `starts[0] = 4`. -/
theorem C10_witness :
    (∀ i v, ([4, -1] : List Int).get? i = some v → v ≠ -1 →
      ([4, 8] : List Int).get? i = some v) ∧
    ([4, 8] : List Int).get? 0 = ([4, -1] : List Int).get? 0 ∧
    ([4, 8] : List Int).length = ([4, -1] : List Int).length ∧
    (∀ v, ([4, -1] : List Int).get? 1 = some v → v ≠ -1 →
      ([4, 8] : List Int) = [4, -1] ∧
      ([FileEvent.seek 4, FileEvent.read 8] : List FileEvent) = []) :=
  C10_frame_effect [0xFF, 0xD8, 0x3F, 0x00, 0xA1, 0xA2, 0xFF, 0xD0, 0xB1,
    0xB2, 0xFF, 0xD9] [4, -1] none 1 [4, 8]
    [FileEvent.seek 4, FileEvent.read 8] (by decide)

/-! ### Claim C3 -/

/-- The last two elements of a list, via `drop`. -/
theorem drop_penultimate {α : Type} (l : List α) (h2 : 2 ≤ l.length)
    {a b : α} (ha : l.get? (l.length - 2) = some a)
    (hb : l.get? (l.length - 1) = some b) :
    l.drop (l.length - 2) = [a, b] := by
  rw [List.drop_eq_get_cons (show l.length - 2 < l.length from by omega)]
  rw [show l.length - 2 + 1 = l.length - 1 from by omega]
  rw [List.drop_eq_get_cons (show l.length - 1 < l.length from by omega)]
  rw [show l.length - 1 + 1 = l.length from by omega, List.drop_length]
  rw [List.get?_eq_get (show l.length - 2 < l.length from by omega)] at ha
  rw [List.get?_eq_get (show l.length - 1 < l.length from by omega)] at hb
  rw [Option.some.inj ha, Option.some.inj hb]

/-- `jpeg_random_access_src` under its asserted preconditions: the
synthesized buffer is the header bytes followed by the scan bytes with
the final byte overwritten to `0xD9`, and it ends in a valid `FF D9`
EOI marker. -/
theorem jpeg_random_access_src_spec (file : JFile)
    (headerStop startPos stopPos : Nat)
    (hh : headerStop ≤ file.length) (hss : startPos ≤ stopPos)
    (hsl : stopPos ≤ file.length)
    (hbig : 2 ≤ headerStop + (stopPos - startPos)) :
    ∀ buffer, buffer = file.take headerStop ++
        (file.drop startPos).take (stopPos - startPos) →
      buffer.get? headerStop ≠ some 0xFF →
      buffer.get? (buffer.length - 2) = some 0xFF →
      jpeg_random_access_src file headerStop startPos stopPos =
          buffer.set (buffer.length - 1) 0xD9 ∧
      (buffer.set (buffer.length - 1) 0xD9).drop (buffer.length - 2)
          = [0xFF, 0xD9] := by
  intro buffer hbuf hnot hpen
  have hlen : buffer.length = headerStop + (stopPos - startPos) := by
    rw [hbuf]
    simp only [List.length_append, List.length_take, List.length_drop]
    omega
  constructor
  · rw [jpeg_random_access_src, ← hbuf, if_neg hnot,
      if_neg (not_not_intro hpen)]
  · have hlen2 : (buffer.set (buffer.length - 1) 0xD9).length
        = buffer.length := List.length_set ..
    have hget2 : (buffer.set (buffer.length - 1) 0xD9).get?
        (buffer.length - 2) = some 0xFF := by
      rw [List.get?_set_ne _ _ (by omega)]
      exact hpen
    have hget1 : (buffer.set (buffer.length - 1) 0xD9).get?
        (buffer.length - 1) = some 0xD9 := by
      rw [List.get?_set_eq, List.get?_eq_get (show buffer.length - 1
        < buffer.length from by omega)]
      rfl
    have hfin := drop_penultimate (buffer.set (buffer.length - 1) 0xD9)
      (by rw [hlen2]; omega)
      (a := 0xFF) (b := 0xD9)
      (by rw [hlen2]; exact hget2)
      (by rw [hlen2]; exact hget1)
    rw [hlen2] at hfin
    exact hfin

/-- **C3.**  For a tile decode of segment `M` (with the needed index
entries known), the synthesized in-memory stream is the file's header
bytes `[0, header_stop)` concatenated with the scan bytes
`[starts[M], stop)`, where `stop` is `starts[M+1]` for an inner segment
and the file size for the last segment, with the final byte overwritten
to `0xD9`; under the asserted preconditions (the byte at `header_stop`
is not `0xFF` and the penultimate buffer byte is `0xFF`) the buffer
ends in a valid `FF D9` EOI marker. -/
theorem C3_synthesized_stream (j : OneJpeg) (x y : Nat) (s0 sM : Int)
    (stop : Nat)
    (h0 : j.mcuStarts.get? 0 = some s0)
    (hM : j.mcuStarts.get? (mcuStartIndex j x y) = some sM) (hMne : sM ≠ -1)
    (hstop : (j.mcuStartsCount = mcuStartIndex j x y + 1 ∧
        stop = j.fileBytes.length) ∨
      (j.mcuStartsCount ≠ mcuStartIndex j x y + 1 ∧
        ∃ sM1, j.mcuStarts.get? (mcuStartIndex j x y + 1) = some sM1 ∧
          sM1 ≠ -1 ∧ stop = sM1.toNat))
    (hh : s0.toNat ≤ j.fileBytes.length) (hss : sM.toNat ≤ stop)
    (hsl : stop ≤ j.fileBytes.length)
    (hbig : 2 ≤ s0.toNat + (stop - sM.toNat)) :
    ∀ buffer, buffer = j.fileBytes.take s0.toNat ++
        (j.fileBytes.drop sM.toNat).take (stop - sM.toNat) →
      buffer.get? s0.toNat ≠ some 0xFF →
      buffer.get? (buffer.length - 2) = some 0xFF →
      read_from_one_jpeg_buffer j x y
          = some (buffer.set (buffer.length - 1) 0xD9) ∧
      (buffer.set (buffer.length - 1) 0xD9).drop (buffer.length - 2)
          = [0xFF, 0xD9] := by
  intro buffer hbuf hnot hpen
  have hc1 : compute_mcu_start j.fileBytes j.mcuStarts j.unreliableMcuStarts
      (mcuStartIndex j x y) = some (j.mcuStarts, []) :=
    compute_mcu_start_already_known hM hMne
  have hg0 : j.mcuStarts.getD 0 0 = s0 := by
    rw [List.getD_eq_get?, h0]
    rfl
  have hgM : j.mcuStarts.getD (mcuStartIndex j x y) 0 = sM := by
    rw [List.getD_eq_get?, hM]
    rfl
  have hshape : read_from_one_jpeg_buffer j x y
      = some (jpeg_random_access_src j.fileBytes s0.toNat sM.toNat stop) := by
    rcases hstop with ⟨hcount, rfl⟩ | ⟨hcount, sM1, hM1, hM1ne, rfl⟩
    · rw [read_from_one_jpeg_buffer]
      simp only [hc1, Option.bind_eq_bind, Option.some_bind, if_pos hcount,
        hg0, hgM]
      simp
      rw [show j.mcuStarts[0]?.getD 0 = s0 from by
            rw [← List.get?_eq_getElem?, h0]; rfl,
        show j.mcuStarts[mcuStartIndex j x y]?.getD 0 = sM from by
            rw [← List.get?_eq_getElem?, hM]; rfl]
    · have hc2 : compute_mcu_start j.fileBytes j.mcuStarts
          j.unreliableMcuStarts (mcuStartIndex j x y + 1)
          = some (j.mcuStarts, []) :=
        compute_mcu_start_already_known hM1 hM1ne
      have hgM1 : j.mcuStarts.getD (mcuStartIndex j x y + 1) 0 = sM1 := by
        rw [List.getD_eq_get?, hM1]
        rfl
      rw [read_from_one_jpeg_buffer]
      simp only [hc1, hc2, Option.bind_eq_bind, Option.some_bind,
        if_neg hcount, hg0, hgM, hgM1]
      simp
      rw [show j.mcuStarts[0]?.getD 0 = s0 from by
            rw [← List.get?_eq_getElem?, h0]; rfl,
        show j.mcuStarts[mcuStartIndex j x y]?.getD 0 = sM from by
            rw [← List.get?_eq_getElem?, hM]; rfl]
  have hspec := jpeg_random_access_src_spec j.fileBytes s0.toNat sM.toNat
    stop hh hss hsl hbig buffer hbuf hnot hpen
  rw [hshape, hspec.1]
  exact ⟨rfl, hspec.2⟩

/-- Witness for `C3_synthesized_stream` at the concrete two-segment
JPEG: decoding segment 0 synthesizes the header bytes `[0, 4)` followed
by the scan bytes `[4, 8)` with the final byte rewritten to `0xD9`, and
the result ends in `FF D9`. -/
theorem C3_witness :
    read_from_one_jpeg_buffer ⟨[0xFF, 0xD8, 0x3F, 0x00, 0xA1, 0xA2, 0xFF,
        0xD0, 0xB1, 0xB2, 0xFF, 0xD9], 2, [4, 8], none, 8, 8, 16, 8⟩ 0 0
      = some [0xFF, 0xD8, 0x3F, 0x00, 0xA1, 0xA2, 0xFF, 0xD9] ∧
    (([0xFF, 0xD8, 0x3F, 0x00, 0xA1, 0xA2, 0xFF, 0xD0] : List Nat).set 7
        0xD9).drop 6 = [0xFF, 0xD9] := by
  have happ := C3_synthesized_stream ⟨[0xFF, 0xD8, 0x3F, 0x00, 0xA1, 0xA2,
      0xFF, 0xD0, 0xB1, 0xB2, 0xFF, 0xD9], 2, [4, 8], none, 8, 8, 16, 8⟩
    0 0 4 4 8 (by decide) (by decide) (by decide)
    (Or.inr ⟨by decide, 8, by decide, by decide, by decide⟩)
    (by decide) (by decide) (by decide) (by decide)
    [0xFF, 0xD8, 0x3F, 0x00, 0xA1, 0xA2, 0xFF, 0xD0]
    (by decide) (by decide) (by decide)
  exact ⟨by simpa using happ.1, by decide⟩

/-! ### Claim C2 -/

/-- **C2.**  For a call with the target unknown and a hint array
present: if the two file bytes at `hints[target] - 2` are `0xFF Dn`
with `0xD0 ≤ Dn ≤ 0xD7` (the test `hintBytesOk`), the call sets
`starts[target] := hints[target]` and returns after exactly one seek
and one two-byte read; otherwise it performs the probe, logs a warning
and falls through to the forward scan, which — whenever the scan from
the last known index meets enough restart markers (`scanReaches`) —
still fills `starts[target]`. -/
theorem C2_hint_handling (file : JFile) (starts hints : List Int)
    (target : Nat) (h1 : starts.get? target = some (-1)) (h0 : target ≠ 0) :
    (hintBytesOk file (hints.getD target (-1)) = true →
      compute_mcu_start file starts (some hints) target =
        some (starts.set target (hints.getD target (-1)),
          [FileEvent.seek (hints.getD target (-1) - 2), FileEvent.read 2])) ∧
    (hints.getD target (-1) ≠ -1 →
      hintBytesOk file (hints.getD target (-1)) = false →
      ∀ fg, firstGoodIdx starts (target - 1) = some fg →
        fg < target → target < starts.length →
        scanReaches file (file.length + 2) ((starts.getD fg 0).toNat)
          (target - fg) = true →
        ∃ s' tr v, compute_mcu_start file starts (some hints) target =
            some (s', FileEvent.seek (hints.getD target (-1) - 2) ::
              FileEvent.read 2 :: FileEvent.warn :: tr) ∧
          s'.get? target = some v ∧ v ≠ -1) := by
  constructor
  · intro hby
    have hne : hints.getD target (-1) ≠ -1 := by
      intro hcon
      rw [hcon, hintBytesOk_neg_one] at hby
      exact absurd hby (by simp)
    exact compute_mcu_start_hint_good h1 h0
      (by rw [hintOffset_some]; exact hne) (by rw [hintOffset_some]; exact hby)
  · intro hne hby fg hfg hfglt htlt hreach
    have hshape := @compute_mcu_start_hint_bad file starts (some hints)
      target fg h1 h0
      (by rw [hintOffset_some]; exact hne) (by rw [hintOffset_some]; exact hby)
      hfg
    obtain ⟨s', v, hspec, hv, hvne⟩ := scanForwardSpec_fills file target
      (file.length + 2) starts fg ((starts.getD fg 0).toNat) hfglt htlt hreach
    have heq := computeMcuStartLoop_eq_spec file (file.length + 2) starts
      target fg [] ((starts.getD fg 0).toNat) (bufInv_nil file _)
    simp only [List.length_nil, Nat.sub_zero] at heq
    rw [hspec] at heq
    obtain ⟨w, hw, hw1⟩ := Option.map_eq_some'.1 heq
    refine ⟨s', FileEvent.seek (starts.getD fg 0) :: w.2, v, ?_, hv, hvne⟩
    rw [hshape, hintOffset_some, hw]
    simp [hw1]

/-- Witness for `C2_hint_handling` (hint-acceptance branch) at the
concrete two-segment JPEG: hint 8 for segment 1 is preceded by
`0xFF 0xD0`, so the call installs it after one seek and one read. -/
theorem C2_witness :
    compute_mcu_start [0xFF, 0xD8, 0x3F, 0x00, 0xA1, 0xA2, 0xFF, 0xD0,
        0xB1, 0xB2, 0xFF, 0xD9] [4, -1] (some [-1, 8]) 1 =
      some ([4, 8], [FileEvent.seek 6, FileEvent.read 2]) := by
  have happ := (C2_hint_handling [0xFF, 0xD8, 0x3F, 0x00, 0xA1, 0xA2, 0xFF,
    0xD0, 0xB1, 0xB2, 0xFF, 0xD9] [4, -1] [-1, 8] 1 (by decide)
    (by decide)).1 (by decide)
  simpa using happ

/-! ### Claim C4 -/

/-- **C4.**  For a call with the target unknown and no usable hint, the
scan starts at `starts[k]` for the largest `k < target` with
`starts[k] ≠ -1`, and the call's effect on the index is exactly the
spec-level forward walk `scanForwardSpec`: each restart marker
`0xFF Dn` encountered is assigned to the next index (position just
after the marker pair), stuffed `0xFF 0x00` pairs and buffer-boundary
`0xFF`s are handled transparently (proved by the equivalence of the
buffered scanner with the stream-level search), and the walk stops at
index `target` or at EOI. -/
theorem C4_forward_scan (file : JFile) (starts : List Int)
    (unreliable : Option (List Int)) (target : Nat) (v0 : Int)
    (h1 : starts.get? target = some (-1)) (h0 : target ≠ 0)
    (hno : hintOffset unreliable target = -1)
    (hv0 : starts.get? 0 = some v0) (hv0ne : v0 ≠ -1) :
    ∃ fg v, firstGoodIdx starts (target - 1) = some fg ∧
      fg < target ∧ starts.get? fg = some v ∧ v ≠ -1 ∧
      (∀ j, fg < j → j < target → starts.get? j = some (-1)) ∧
      (compute_mcu_start file starts unreliable target).map Prod.fst =
        scanForwardSpec file target (file.length + 2) starts fg v.toNat := by
  have htlt : target < starts.length := by
    by_contra hge
    rw [List.get?_eq_none.2 (by omega)] at h1
    exact absurd h1 (by simp)
  obtain ⟨fg, v, hfg, hle, hv, hvne, habove⟩ :=
    firstGoodIdx_spec starts hv0 hv0ne (target - 1) (by omega)
  have hgetD : starts.getD fg 0 = v := by
    rw [List.getD_eq_get?, hv]
    rfl
  refine ⟨fg, v, hfg, by omega, hv, hvne, ?_, ?_⟩
  · intro j hj1 hj2
    exact habove j hj1 (by omega)
  · rw [compute_mcu_start_no_hint h1 h0 hno hfg, hgetD]
    have heq := computeMcuStartLoop_eq_spec file (file.length + 2) starts
      target fg [] v.toNat (bufInv_nil file _)
    simp only [List.length_nil, Nat.sub_zero] at heq
    rw [← heq]
    cases computeMcuStartLoop file 4096 (2 * file.length + 4)
        (file.length + 2) starts target fg [] v.toNat with
    | none => rfl
    | some r => rfl

/-- Witness for `C4_forward_scan` at the concrete two-segment JPEG:
the scan for segment 1 starts at `starts[0] = 4` and the call's result
equals the spec-level walk. -/
theorem C4_witness :
    ∃ fg v, firstGoodIdx [(4 : Int), -1] 0 = some fg ∧
      fg < 1 ∧ ([(4 : Int), -1] : List Int).get? fg = some v ∧ v ≠ -1 ∧
      (∀ j, fg < j → j < 1 → ([(4 : Int), -1] : List Int).get? j = some (-1)) ∧
      (compute_mcu_start [0xFF, 0xD8, 0x3F, 0x00, 0xA1, 0xA2, 0xFF, 0xD0,
          0xB1, 0xB2, 0xFF, 0xD9] [4, -1] none 1).map Prod.fst =
        scanForwardSpec [0xFF, 0xD8, 0x3F, 0x00, 0xA1, 0xA2, 0xFF, 0xD0,
          0xB1, 0xB2, 0xFF, 0xD9] 1 14 [4, -1] fg v.toNat :=
  C4_forward_scan [0xFF, 0xD8, 0x3F, 0x00, 0xA1, 0xA2, 0xFF, 0xD0, 0xB1,
    0xB2, 0xFF, 0xD9] [4, -1] none 1 4 (by decide) (by decide) rfl
    (by decide) (by decide)

/-! ### Claim C5 -/

/-- **C5, counterexample to the claim as stated.**  The claim says a
request with `col = tiles_across` fails with an out-of-range error.  On
the S6 level (`tiles_across = 10`, `tiles_down = 8`, `num_frames = 80`)
the request `(col = 10, row = 2)` computes frame number
`1 + 10 + 10·2 = 31`, which passes the range check `[1, 80]`: the read
proceeds (with the wrong frame) instead of failing. -/
theorem C5_counterexample :
    read_tile_frame_number 10 10 2 = 31 ∧
    read_tile_guard_ok 80 10 10 2 = true := by
  decide

/-- **C5 (amended).**  The requested frame number is
`1 + col + tiles_across·row` (as a `guint32`, which does not wrap when
`tiles_across·tiles_down < 2³²`), and for every in-range `(col, row)`
with `num_frames = tiles_across·tiles_down` it lies in
`[1, num_frames]`, so the range check passes and the read proceeds.
The guard rejects exactly the requests whose computed frame number
falls outside `[1, num_frames]`; a request with `col = tiles_across`
is only rejected when that value exceeds `num_frames` (e.g. in the last
row), not in general. -/
theorem C5_frame_number (across down col row : Int) (numFrames : Nat)
    (hnf : (numFrames : Int) = across * down)
    (hwrap : across * down < 2 ^ 32)
    (hc0 : 0 ≤ col) (hca : col < across)
    (hr0 : 0 ≤ row) (hrd : row < down) :
    read_tile_frame_number across col row = (1 + col + across * row).toNat ∧
    1 ≤ read_tile_frame_number across col row ∧
    read_tile_frame_number across col row ≤ numFrames ∧
    read_tile_guard_ok numFrames across col row = true := by
  have hA : (0 : Int) < across := lt_of_le_of_lt hc0 hca
  have hp : 0 ≤ across * row := mul_nonneg hA.le hr0
  have hca' : col + 1 ≤ across := Int.lt_iff_add_one_le.mp hca
  have hrd' : row + 1 ≤ down := Int.lt_iff_add_one_le.mp hrd
  have hub : across * (row + 1) ≤ across * down :=
    mul_le_mul_of_nonneg_left hrd' hA.le
  have hring : across * (row + 1) = across * row + across := by ring
  have hv1 : (1 : Int) ≤ 1 + col + across * row := by linarith
  have hv2 : 1 + col + across * row ≤ across * down := by linarith
  have hmod : (1 + col + across * row) % (2 ^ 32 : Int)
      = 1 + col + across * row :=
    Int.emod_eq_of_lt (by linarith) (by linarith)
  have hfn : read_tile_frame_number across col row
      = (1 + col + across * row).toNat := by
    rw [read_tile_frame_number, hmod]
  have h1n : 1 ≤ read_tile_frame_number across col row := by
    rw [hfn]
    simpa using Int.toNat_le_toNat hv1
  have h2n : read_tile_frame_number across col row ≤ numFrames := by
    rw [hfn]
    have : 1 + col + across * row ≤ (numFrames : Int) := by
      rw [hnf]
      exact hv2
    simpa using Int.toNat_le_toNat this
  refine ⟨hfn, h1n, h2n, ?_⟩
  simp only [read_tile_guard_ok, Bool.not_eq_true', Bool.or_eq_false_iff,
    decide_eq_false_iff_not, not_lt, gt_iff_lt]
  exact ⟨h1n, h2n⟩

/-- Witness for `C5_frame_number` on the S6 level: the in-range request
`(col = 3, row = 2)` fetches frame number `24` and passes the check. -/
theorem C5_witness :
    read_tile_frame_number 10 3 2 = 24 ∧
    read_tile_guard_ok 80 10 3 2 = true := by
  have happ := C5_frame_number 10 8 3 2 80 (by decide) (by decide)
    (by decide) (by decide) (by decide) (by decide)
  exact ⟨by rw [happ.1]; decide, happ.2.2.2⟩

/-! ### Claim C6 -/

/-- **C6, counterexample to the claim as stated.**  The claim says every
index outside the valid range yields `(0, 0)`, but the code only checks
`layer >= osr->layer_count`: a negative index reaches the pointer
arithmetic `data->layers + layer` out of bounds (modelled `none`), so it
does not return `(0, 0)`. -/
theorem C6_counterexample :
    get_dimensions [(⟨[], 100, 50, 1, 1, 100, 50, 2, (100, 100)⟩ : LayerM)]
      (-1) ≠ some (0, 0) := by
  decide

/-- **C6 (amended).**  `get_dimensions` returns `(0, 0)` for every index
at or above the layer count, and for every valid (non-negative,
in-range) index it returns the layer's `pixel_w / scale_denom` and
`pixel_h / scale_denom`; a negative index is undefined behaviour, not a
`(0, 0)` result. -/
theorem C6_dimensions (layers : List LayerM) (layer : Int) (l : LayerM) :
    ((layers.length : Int) ≤ layer → get_dimensions layers layer
      = some (0, 0)) ∧
    (0 ≤ layer → layers.get? layer.toNat = some l →
      get_dimensions layers layer
        = some (Int.tdiv l.pixelW l.scaleDenom,
            Int.tdiv l.pixelH l.scaleDenom)) := by
  constructor
  · intro h
    rw [get_dimensions, if_pos h]
  · intro h0 hget
    have hlt : layer.toNat < layers.length := by
      by_contra hc
      rw [List.get?_eq_none.2 (by omega)] at hget
      exact absurd hget (by simp)
    rw [get_dimensions, if_neg (by omega), if_pos h0, hget]
    rfl

/-- Witness for `C6_dimensions` on a one-layer slide: index `3` is out
of range and yields `(0, 0)`; index `0` yields the layer's scaled
dimensions `(100/2, 50/2) = (50, 25)`. -/
theorem C6_witness :
    get_dimensions [(⟨[], 100, 50, 1, 1, 100, 50, 2, (100, 100)⟩ : LayerM)] 3
      = some (0, 0) ∧
    get_dimensions [(⟨[], 100, 50, 1, 1, 100, 50, 2, (100, 100)⟩ : LayerM)] 0
      = some (50, 25) := by
  constructor
  · exact (C6_dimensions [⟨[], 100, 50, 1, 1, 100, 50, 2, (100, 100)⟩] 3
      ⟨[], 100, 50, 1, 1, 100, 50, 2, (100, 100)⟩).1 (by decide)
  · have happ := (C6_dimensions
      [(⟨[], 100, 50, 1, 1, 100, 50, 2, (100, 100)⟩ : LayerM)] 0
      ⟨[], 100, 50, 1, 1, 100, 50, 2, (100, 100)⟩).2 (by decide) (by decide)
    rw [happ]
    decide

/-! ### Claim C7 -/

/-- If the fragment list violates the zxy-successor chain from `prev`,
the accumulation loop hits the `g_assert` and aborts (`none`),
whatever its accumulator state. -/
theorem cwtlmAux_none {frags : List (Fragment × OneJpegDim)} :
    ∀ prev acc lpw lph i00w i00h l0w m,
      zxyChainOk prev frags = false →
      cwtlmAux frags prev acc lpw lph i00w i00h l0w m = none := by
  induction frags with
  | nil =>
    intro prev acc lpw lph i00w i00h l0w m h
    obtain ⟨pz, px, py⟩ := prev
    simp [zxyChainOk] at h
  | cons p rest ih =>
    intro prev acc lpw lph i00w i00h l0w m h
    obtain ⟨fr, oj⟩ := p
    obtain ⟨pz, px, py⟩ := prev
    rw [zxyChainOk] at h
    by_cases hs : is_zxy_successor pz px py fr.z fr.x fr.y = true
    · have hrest : zxyChainOk (fr.z, fr.x, fr.y) rest = false := by
        rw [hs] at h
        simpa using h
      rw [cwtlmAux, if_pos hs]
      by_cases hfl : rest = [] ∨
          (rest.head?.map (fun p => p.1.z) ≠ some fr.z)
      · rw [if_pos hfl]
        cases hgen : generate_layers_into_map (acc ++ [oj]) (fr.x + 1)
            (fr.y + 1) (if fr.y = 0 then lpw + oj.width else lpw)
            (if fr.x = 0 then lph + oj.height else lph)
            (if fr.x = 0 ∧ fr.y = 0 then (oj.width, oj.height)
              else (i00w, i00h)).1
            (if fr.x = 0 ∧ fr.y = 0 then (oj.width, oj.height)
              else (i00w, i00h)).2
            (if fr.z = 0 then (if fr.y = 0 then lpw + oj.width else lpw)
              else l0w) m with
        | none => simp [hgen]
        | some m' =>
          simp only [hgen]
          exact ih _ _ _ _ _ _ _ _ hrest
      · rw [if_neg hfl]
        exact ih _ _ _ _ _ _ _ _ hrest
    · rw [cwtlmAux, if_neg hs]

/-- **C7.**  The zxy-successor check accepts `(z, x, y)` after
`(pz, px, py)` exactly when it is `(pz+1, 0, 0)`, or the same `z` with
`(x, y) = (0, py+1)`, or the same `z` and `y` with `x = px+1`; and any
fragment list violating this chain at some step makes
`create_width_to_layer_map` abort via `g_assert` (modelled `none`), not
return a reportable error value. -/
theorem C7_zxy_order (pz px py z x y : Int)
    (frags : List (Fragment × OneJpegDim))
    (hviol : zxyChainOk (-1, -1, -1) frags = false) :
    (is_zxy_successor pz px py z x y = true ↔
      (z = pz + 1 ∧ x = 0 ∧ y = 0) ∨
      (z = pz ∧ y = py + 1 ∧ x = 0) ∨
      (z = pz ∧ y = py ∧ x = px + 1)) ∧
    create_width_to_layer_map frags = none := by
  constructor
  · rw [is_zxy_successor]
    split_ifs with h1 h2 h3 h4 <;>
      simp only [decide_eq_true_eq, Bool.false_eq_true, false_iff] <;> omega
  · exact cwtlmAux_none _ _ _ _ _ _ _ _ hviol

/-- Witness for `C7_zxy_order`: `(0, 0, 0)` is a valid successor of the
sentinel `(-1, -1, -1)`, and the singleton fragment list starting at
`(z, x, y) = (0, 1, 0)` violates the chain, so the map construction
aborts. -/
theorem C7_witness :
    is_zxy_successor (-1) (-1) (-1) 0 0 0 = true ∧
    create_width_to_layer_map [(⟨0, 1, 0⟩, ⟨1024, 1024⟩)] = none := by
  have happ := C7_zxy_order (-1) (-1) (-1) 0 0 0
    [(⟨0, 1, 0⟩, ⟨1024, 1024⟩)] (by decide)
  exact ⟨happ.1.mpr (Or.inl (by decide)), happ.2⟩

/-! ### Claim C8 -/

/-- **C8.**  For a z-group, `generate_layers_into_map` creates exactly
four layers with `scale_denom ∈ {1, 2, 4, 8}`, all sharing the same
jpeg array (`jpegs.take (jpegs_across·jpegs_down)`), each inserted
under key `pixel_w / scale_denom`; whenever those four quotients are
pairwise distinct, the resulting map contains all four layers of the
group at their keys. -/
theorem C8_four_levels (jpegs : List OneJpegDim)
    (a d pw ph i00w i00h l0w : Int) (m : WLMap) (m' : WLMap)
    (hgen : generate_layers_into_map jpegs a d pw ph i00w i00h l0w m
      = some m')
    (h12 : Int.tdiv pw 1 ≠ Int.tdiv pw 2)
    (h14 : Int.tdiv pw 1 ≠ Int.tdiv pw 4)
    (h18 : Int.tdiv pw 1 ≠ Int.tdiv pw 8)
    (h24 : Int.tdiv pw 2 ≠ Int.tdiv pw 4)
    (h28 : Int.tdiv pw 2 ≠ Int.tdiv pw 8)
    (h48 : Int.tdiv pw 4 ≠ Int.tdiv pw 8) :
    (a * d).toNat ≤ jpegs.length ∧
    ∀ sd ∈ ([1, 2, 4, 8] : List Int),
      m' (Int.tdiv pw sd) =
        some { layerJpegs := jpegs.take (a * d).toNat, pixelW := pw,
               pixelH := ph, jpegsAcross := a, jpegsDown := d,
               image00W := i00w, image00H := i00h, scaleDenom := sd,
               noScaleDenomDownsample := (l0w, pw) } := by
  simp only [generate_layers_into_map] at hgen
  by_cases hn : (a * d).toNat ≤ jpegs.length
  · rw [if_pos hn] at hgen
    refine ⟨hn, ?_⟩
    obtain rfl := Option.some.inj hgen
    intro sd hsd
    simp only [List.mem_cons, List.not_mem_nil, or_false] at hsd
    simp only [List.foldl_cons, List.foldl_nil, wlInsert]
    rcases hsd with rfl | rfl | rfl | rfl
    · rw [if_neg h18, if_neg h14, if_neg h12, if_pos rfl]
    · rw [if_neg h28, if_neg h24, if_pos rfl]
    · rw [if_neg h48, if_pos rfl]
    · rw [if_pos rfl]
  · rw [if_neg hn] at hgen
    exact absurd hgen (by simp)

/-- Witness for `C8_four_levels` on a 2×2 group of 1024×1024 jpegs with
`pixel_w = 2048`: the four quotients `2048, 1024, 512, 256` are
distinct and the map holds the four layers. -/
theorem C8_witness :
    ∃ m', generate_layers_into_map
        (List.replicate 4 (⟨1024, 1024⟩ : OneJpegDim)) 2 2 2048 1536
        1024 768 2048 emptyWLMap = some m' ∧
      ((2 * 2 : Int).toNat ≤
          (List.replicate 4 (⟨1024, 1024⟩ : OneJpegDim)).length ∧
        ∀ sd ∈ ([1, 2, 4, 8] : List Int),
          m' (Int.tdiv 2048 sd) =
            some { layerJpegs := (List.replicate 4
                     (⟨1024, 1024⟩ : OneJpegDim)).take (2 * 2 : Int).toNat,
                   pixelW := 2048, pixelH := 1536, jpegsAcross := 2,
                   jpegsDown := 2, image00W := 1024, image00H := 768,
                   scaleDenom := sd,
                   noScaleDenomDownsample := (2048, 2048) }) := by
  refine ⟨_, rfl, ?_⟩
  exact C8_four_levels (List.replicate 4 ⟨1024, 1024⟩) 2 2 2048 1536
    1024 768 2048 emptyWLMap _ rfl (by decide) (by decide) (by decide)
    (by decide) (by decide) (by decide)

/-! ### Claim C9 -/

/-- A successful row comparison pins down every `ImageType` element of
the row. -/
theorem rowCheck_matches {meta : Nat → Option String} :
    ∀ (row : List String) (j : Nat), rowCheck meta row j = some true →
      ∀ i, i < row.length → meta (j + i) = some (row.getD i "") := by
  intro row
  induction row with
  | nil =>
    intro j h i hi
    simp at hi
  | cons t ts ih =>
    intro j h i hi
    rw [rowCheck] at h
    cases hm : meta j with
    | none =>
      simp only [hm] at h
      exact absurd h (by simp)
    | some v =>
      simp only [hm] at h
      by_cases hv : v = t
      · rw [if_pos hv] at h
        cases i with
        | zero =>
          rw [hv] at hm
          simpa using hm
        | succ i' =>
          have hrec := ih (j + 1) h i' (by simpa using hi)
          rw [show j + (i' + 1) = j + 1 + i' from by omega]
          exact hrec
      · rw [if_neg hv] at h
        exact absurd h (by simp)

/-- A true `is_type` exhibits a fully matching row. -/
theorem is_type_matches {meta : Nat → Option String} :
    ∀ rows : List (List String), is_type meta rows = true →
      ∃ row ∈ rows, imageTypeMatches meta row := by
  intro rows
  induction rows with
  | nil =>
    intro h
    rw [is_type] at h
    exact absurd h (by simp)
  | cons row rest ih =>
    intro h
    rw [is_type] at h
    cases hrc : rowCheck meta row 0 with
    | none =>
      simp only [hrc] at h
      exact absurd h (by simp)
    | some b =>
      cases b with
      | false =>
        simp only [hrc] at h
        obtain ⟨r, hr, hrm⟩ := ih h
        exact ⟨r, List.mem_cons_of_mem _ hr, hrm⟩
      | true =>
        refine ⟨row, List.mem_cons_self .., ?_⟩
        intro i hi
        simpa using rowCheck_matches row 0 hrc i hi

/-- Inversion of `level_new`: success requires an accepted pyramid
`ImageType` and square tiles, and the level keeps the tile size. -/
theorem level_new_inv {f : DicomFileM} {l : DLevelM}
    (h : level_new f = some l) :
    is_type f.imageType level_types = true ∧ l.tileW = l.tileH := by
  rw [level_new] at h
  by_cases hwk : ¬ f.wholeOk
  · rw [if_pos hwk] at h
    exact absurd h (by simp)
  rw [if_neg hwk] at h
  cases hw : f.tpmColumns with
  | none => simp only [hw] at h; exact absurd h (by simp)
  | some w =>
  cases hhh : f.tpmRows with
  | none => simp only [hw, hhh] at h; exact absurd h (by simp)
  | some hgt =>
  cases hc : f.cols with
  | none => simp only [hw, hhh, hc] at h; exact absurd h (by simp)
  | some tw =>
  cases hr : f.numRows with
  | none => simp only [hw, hhh, hc, hr] at h; exact absurd h (by simp)
  | some th =>
  simp only [hw, hhh, hc, hr] at h
  by_cases hit : ¬ is_type f.imageType level_types
  · rw [if_pos hit] at h
    exact absurd h (by simp)
  rw [if_neg hit] at h
  by_cases hsq : tw ≠ th
  · rw [if_pos hsq] at h
    exact absurd h (by simp)
  rw [if_neg hsq] at h
  obtain rfl := Option.some.inj h
  exact ⟨not_not.mp hit, not_not.mp hsq⟩

/-- Inversion of `associated_new`: success requires an accepted
associated `ImageType`, and the name is `ImageType[2]`. -/
theorem associated_new_inv {f : DicomFileM} {nm : String} {w h : Int}
    (ha : associated_new f = some (nm, w, h)) :
    is_type f.imageType associated_types = true ∧
    f.imageType 2 = some nm := by
  rw [associated_new] at ha
  by_cases hwk : ¬ f.wholeOk
  · rw [if_pos hwk] at ha
    exact absurd ha (by simp)
  rw [if_neg hwk] at ha
  by_cases hit : ¬ is_type f.imageType associated_types
  · rw [if_pos hit] at ha
    exact absurd ha (by simp)
  rw [if_neg hit] at ha
  cases h2 : f.imageType 2 with
  | none => simp only [h2] at ha; exact absurd ha (by simp)
  | some name =>
  simp only [h2] at ha
  cases hcw : f.tpmColumns with
  | none => simp only [hcw] at ha; exact absurd ha (by simp)
  | some w' =>
  cases hch : f.tpmRows with
  | none => simp only [hcw, hch] at ha; exact absurd ha (by simp)
  | some h' =>
  simp only [hcw, hch] at ha
  obtain ⟨hn, -, -⟩ := Prod.mk.injEq .. ▸ Option.some.inj ha
  exact ⟨not_not.mp hit, congrArg some hn⟩

/-- **C9.**  A candidate file becomes a pyramid level only if its
`ImageType` matches `{ORIGINAL,PRIMARY,VOLUME,NONE}` or
`{DERIVED,PRIMARY,VOLUME,RESAMPLED}` and its tiles are square
(`Columns = Rows`); a file failing the `ImageType` test, or with
non-square tiles, is rejected (`none`); and an associated image is
registered as "label" only when the `ImageType` is
`{ORIGINAL,PRIMARY,LABEL,NONE}` and as "macro" only when it is
`{ORIGINAL,PRIMARY,OVERVIEW,NONE}`. -/
theorem C9_type_classification (f : DicomFileM) :
    (∀ l, level_new f = some l →
      (imageTypeMatches f.imageType original_types ∨
        imageTypeMatches f.imageType resampled_types) ∧
      l.tileW = l.tileH) ∧
    (is_type f.imageType level_types = false → level_new f = none) ∧
    (∀ tw th, f.cols = some tw → f.numRows = some th → tw ≠ th →
      level_new f = none) ∧
    (find_associated_name f = some "label" →
      imageTypeMatches f.imageType label_types) ∧
    (find_associated_name f = some "macro" →
      imageTypeMatches f.imageType overview_types) := by
  refine ⟨?_, ?_, ?_, ?_, ?_⟩
  · intro l hl
    obtain ⟨hit, hsq⟩ := level_new_inv hl
    obtain ⟨row, hrow, hmat⟩ := is_type_matches level_types hit
    refine ⟨?_, hsq⟩
    simp only [level_types, List.mem_cons, List.not_mem_nil,
      or_false] at hrow
    rcases hrow with rfl | rfl
    · exact Or.inl hmat
    · exact Or.inr hmat
  · intro hit
    rw [level_new]
    by_cases hwk : ¬ f.wholeOk
    · rw [if_pos hwk]
    · rw [if_neg hwk]
      split
      · rw [if_pos (by simp [hit])]
      · rfl
  · intro tw th hc hr hne
    rw [level_new]
    by_cases hwk : ¬ f.wholeOk
    · rw [if_pos hwk]
    · rw [if_neg hwk]
      rw [hc, hr]
      split
      · rename_i w0 h0 tw0 th0 hq1 hq2 hq3 hq4
        obtain rfl := Option.some.inj hq3
        obtain rfl := Option.some.inj hq4
        by_cases hit2 : ¬ is_type f.imageType level_types
        · rw [if_pos hit2]
        · rw [if_neg hit2, if_pos hne]
      · rfl
  · intro h
    rw [find_associated_name] at h
    cases ha : associated_new f with
    | none =>
      simp only [ha] at h
      exact absurd h (by simp)
    | some p =>
      obtain ⟨nm, w, hgt⟩ := p
      simp only [ha] at h
      obtain ⟨hit, h2⟩ := associated_new_inv ha
      by_cases hnm : nm = "LABEL"
      · obtain ⟨row, hrow, hmat⟩ := is_type_matches associated_types hit
        simp only [associated_types, List.mem_cons, List.not_mem_nil,
          or_false] at hrow
        rcases hrow with rfl | rfl
        · exact hmat
        · have hov := hmat 2 (by decide)
          have hcon : some nm = some (overview_types.getD 2 "") :=
            h2.symm.trans hov
          rw [hnm] at hcon
          exact absurd hcon (by decide)
      · rw [if_neg hnm] at h
        by_cases hnm2 : nm = "OVERVIEW"
        · rw [if_pos hnm2] at h
          exact absurd (Option.some.inj h) (by decide)
        · rw [if_neg hnm2] at h
          exact absurd h (by simp)
  · intro h
    rw [find_associated_name] at h
    cases ha : associated_new f with
    | none =>
      simp only [ha] at h
      exact absurd h (by simp)
    | some p =>
      obtain ⟨nm, w, hgt⟩ := p
      simp only [ha] at h
      obtain ⟨hit, h2⟩ := associated_new_inv ha
      by_cases hnm : nm = "LABEL"
      · rw [if_pos hnm] at h
        exact absurd (Option.some.inj h) (by decide)
      · rw [if_neg hnm] at h
        by_cases hnm2 : nm = "OVERVIEW"
        · obtain ⟨row, hrow, hmat⟩ := is_type_matches associated_types hit
          simp only [associated_types, List.mem_cons, List.not_mem_nil,
            or_false] at hrow
          rcases hrow with rfl | rfl
          · have hlb := hmat 2 (by decide)
            have hcon : some nm = some (label_types.getD 2 "") :=
              h2.symm.trans hlb
            rw [hnm2] at hcon
            exact absurd hcon (by decide)
          · exact hmat
        · rw [if_neg hnm2] at h
          exact absurd h (by simp)

/-- Witness for `C9_type_classification`: the S6-style file with
`ImageType = {ORIGINAL, PRIMARY, VOLUME, NONE}` and square 256×256
tiles is accepted as a level, its `ImageType` matching the original
combination. -/
theorem C9_witness :
    (imageTypeMatches (fun j => ([some "ORIGINAL", some "PRIMARY",
        some "VOLUME", some "NONE"] : List (Option String)).getD j none)
        original_types ∨
      imageTypeMatches (fun j => ([some "ORIGINAL", some "PRIMARY",
        some "VOLUME", some "NONE"] : List (Option String)).getD j none)
        resampled_types) ∧
    (⟨2560, 2048, 256, 256, 80, 10, 8⟩ : DLevelM).tileW
      = (⟨2560, 2048, 256, 256, 80, 10, 8⟩ : DLevelM).tileH :=
  (C9_type_classification ⟨true, fun j => ([some "ORIGINAL",
      some "PRIMARY", some "VOLUME", some "NONE"] :
        List (Option String)).getD j none,
    some 2560, some 2048, some 256, some 256, 80⟩).1
    ⟨2560, 2048, 256, 256, 80, 10, 8⟩ (by decide)

end Openslide
